import Mathlib

/-!
Verification of the sentence-level change detection and classification
pipeline of `app.py` (professional communication assistant).

The Python source is shallowly embedded:
* `pyStrip`, `pyLower` model `str.strip()` / `str.lower()` (ASCII whitespace
  and ASCII case model; the inputs of interest are ASCII).
* `split_sentences` models `re.split(r'(?<=[.!?])\s+', text.strip())`:
  the regex engine scans left to right and each match consumes a maximal
  whitespace run that is immediately preceded by `.`, `!` or `?`.
* Python dicts keyed by strings are modelled as association lists with
  insert-or-overwrite (`dictInsert`) and first-match lookup (`dictGet`);
  this matches dict semantics because `dictInsert` keeps keys unique.
* `difflib.SequenceMatcher(None, a, b)` (isjunk = None, autojunk = True)
  is embedded below: `b2j`, `findLongestMatch`, `get_matching_blocks`,
  `get_opcodes`.  With isjunk = None the junk set `bjunk` is empty, so the
  two junk-extension `while` loops of `find_longest_match` are no-ops and
  are omitted; the popularity purge of `autojunk` (sequences of length
  >= 200) is modelled faithfully in `b2j`.
* The Streamlit button handler is modelled by `runPolishAction`, with the
  external LLM as an oracle `llm : Nat -> String` giving the raw text of
  the k-th `gemini_generate` call of the action (call 0 is the polish
  call); `gemini_generate` strips the raw response.  The startup
  credential check is modelled by `startup`.
-/

/-- ASCII whitespace as matched by Python's `str.strip` and `\s`
(space, tab, newline, carriage return, vertical tab, form feed). -/
def isSpace (c : Char) : Bool :=
  c == ' ' || c == '\t' || c == '\n' || c == '\r' || c.toNat == 11 || c.toNat == 12

/-- Sentence-terminal punctuation of the splitting regex: `.`, `!`, `?`. -/
def isPunct (c : Char) : Bool :=
  c == '.' || c == '!' || c == '?'

/-- Model of Python `str.strip()` on a character list. -/
def pyStripL (l : List Char) : List Char :=
  ((l.dropWhile isSpace).reverse.dropWhile isSpace).reverse

/-- Model of Python `str.strip()`. -/
def pyStrip (s : String) : String := ⟨pyStripL s.data⟩

/-- Model of Python `str.lower()` (ASCII case folding). -/
def pyLower (s : String) : String := ⟨s.data.map Char.toLower⟩

/-- Core of `re.split(r'(?<=[.!?])\s+', ·)`: scanning left to right, a
maximal whitespace run immediately preceded by `.`, `!` or `?` is a
match of the pattern and separates two segments. -/
def splitGo : List Char → List (List Char)
  | [] => [[]]
  | [c] => [[c]]
  | c :: d :: rest =>
    if isPunct c && isSpace d then
      [c] :: splitGo (List.dropWhile isSpace (d :: rest))
    else
      match splitGo (d :: rest) with
      | [] => [[c]]
      | s :: ss => (c :: s) :: ss
termination_by l => l.length
decreasing_by
  · simp only [List.length_cons]
    have h := (List.dropWhile_sublist (l := d :: rest) isSpace).length_le
    simp only [List.length_cons] at h
    omega
  · simp

/-- Embedding of `split_sentences` from app.py:
`re.split(r'(?<=[.!?])\s+', text.strip())`. -/
def split_sentences (text : String) : List String :=
  (splitGo (pyStripL text.data)).map (fun l => ⟨l⟩)

/-- Association-list lookup, modelling Python `dict.get(k)` (returns
`none` when the key is absent). -/
def dictGet (d : List (String × String)) (k : String) : Option String :=
  match d with
  | [] => none
  | (k', v) :: rest => if k' = k then some v else dictGet rest k

/-- Association-list insert-or-overwrite, modelling `d[k] = v`. -/
def dictInsert (d : List (String × String)) (k v : String) : List (String × String) :=
  match d with
  | [] => [(k, v)]
  | (k', v') :: rest => if k' = k then (k', v) :: rest else (k', v') :: dictInsert rest k v

/-- The category → background-color table of `highlight_sentences`. -/
def highlights : List (String × String) :=
  [("grammar", "background-color:#ffcccc;"),
   ("spelling", "background-color:#cce5ff;"),
   ("tone", "background-color:#fff3cd;"),
   ("formatting", "background-color:#d5f5e3;"),
   ("other", "background-color:#e8d4f8;")]

/-- A single-quote character (the span style delimiter in the generated
HTML). -/
def sQuote : String := ⟨[Char.ofNat 39]⟩

/-- The f-string of `highlight_sentences` wrapping one sentence. -/
def wrapSpan (style sent : String) : String :=
  "<span style=" ++ sQuote ++ style ++ sQuote ++ ">" ++ sent ++ "</span>"

/-- Loop body of `highlight_sentences`: look up the trimmed sentence in
the category dict; a present, truthy (non-empty) category wraps the
sentence in a span whose style is `highlights.get(category, "")`. -/
def highlightOne (categories : List (String × String)) (sent : String) : String :=
  match dictGet categories (pyStrip sent) with
  | none => sent
  | some category =>
    if category = "" then sent
    else wrapSpan ((dictGet highlights category).getD "") sent

/-- The `output` list built by the loop of `highlight_sentences`. -/
def highlightList (polished_sentences : List String)
    (categories : List (String × String)) : List String :=
  polished_sentences.map (highlightOne categories)

/-- Model of `" ".join(...)`: the separator appears exactly between
consecutive elements. -/
def spaceJoin : List String → String
  | [] => ""
  | [s] => s
  | s :: rest => s ++ " " ++ spaceJoin rest

/-- Embedding of `highlight_sentences` from app.py. -/
def highlight_sentences (polished_sentences : List String)
    (categories : List (String × String)) : String :=
  spaceJoin (highlightList polished_sentences categories)

/-- The five allowed categories of the classifier. -/
def allowedCategories : List String :=
  ["grammar", "spelling", "tone", "formatting", "other"]

/-- Classification of one raw LLM response:
`gemini_generate(...)` strips the raw text, the loop lower-cases it and
falls back to `"other"` outside the five allowed categories. -/
def respCategory (raw : String) : String :=
  let category := pyLower (pyStrip raw)
  if category ∈ allowedCategories then category else "other"

/-- The classification loop of the polishing workflow: one
`gemini_generate` call per element of `changed_sentences` (threading the
LLM call counter `n`), storing `categories[sent.strip()] = category`. -/
def classifyLoop (llm : Nat → String) :
    List String → Nat → List (String × String) → Nat × List (String × String)
  | [], n, categories => (n, categories)
  | sent :: rest, n, categories =>
    classifyLoop llm rest (n + 1) (dictInsert categories (pyStrip sent) (respCategory (llm n)))

/-- Startup result: either the credential check halts the program
(`st.error` + `st.stop()`) or the model is configured and the UI runs. -/
inductive StartupResult where
  | halted (errorShown : Bool)
  | running (modelName : String)
deriving DecidableEq, Repr

/-- Embedding of the startup credential check of app.py:
`GEMINI_API_KEY = os.getenv(...)`; `if not GEMINI_API_KEY:` shows an
error and stops (an unset variable is `None`, and the empty string is
also falsy); otherwise the model `gemini-1.5-flash` is configured. -/
def startup (envKey : Option String) : StartupResult :=
  match envKey with
  | none => .halted true
  | some k => if k = "" then .halted true else .running "gemini-1.5-flash"

/-- The `b2j` mapping of `SequenceMatcher.__chain_b`: for each value the
ascending list of its occurrence indices in `b`.  With `isjunk = None`
no junk is purged; `autojunk` purges "popular" values (more than
`n // 100 + 1` occurrences) when `n >= 200`. -/
def b2j (b : List String) (v : String) : List Nat :=
  let idxs := (List.range b.length).filter (fun j => b.getD j "" == v)
  if 200 ≤ b.length ∧ b.length / 100 + 1 < idxs.length then [] else idxs

/-- The window handling of the inner loop of `find_longest_match`:
`if j < blo: continue`, `if j >= bhi: break`. -/
def windowJs (blo bhi : Nat) : List Nat → List Nat
  | [] => []
  | j :: rest =>
    if j < blo then windowJs blo bhi rest
    else if bhi ≤ j then []
    else j :: windowJs blo bhi rest

/-- Point update of a `j2len` row, modelling `newj2len[j] = k`. -/
def rowUpdate (row : Nat → Nat) (j k : Nat) : Nat → Nat :=
  fun j' => if j' = j then k else row j'

/-- The inner `for j in b2j.get(a[i])` loop of `find_longest_match`:
`k = newj2len[j] = j2len.get(j-1, 0) + 1`, updating the best match when
`k > bestsize`.  `j2len` dicts are modelled as total functions defaulting
to 0; Python's `j2len.get(j-1, 0)` at `j = 0` reads key `-1`, which is
absent, hence the explicit `j = 0` case. -/
def innerJs (row : Nat → Nat) (i : Nat) :
    List Nat → (Nat → Nat) → Nat × Nat × Nat → (Nat → Nat) × (Nat × Nat × Nat)
  | [], newRow, best => (newRow, best)
  | j :: js, newRow, best =>
    let k := (if j = 0 then 0 else row (j - 1)) + 1
    let best' := if best.2.2 < k then (i + 1 - k, j + 1 - k, k) else best
    innerJs row i js (rowUpdate newRow j k) best'

/-- The outer `for i in range(alo, ahi)` loop of `find_longest_match`,
with `steps` remaining iterations. -/
def coreLoop (a b : List String) (blo bhi : Nat) :
    Nat → Nat → (Nat → Nat) → Nat × Nat × Nat → Nat × Nat × Nat
  | _, 0, _, best => best
  | i, steps + 1, row, best =>
    let js := windowJs blo bhi (b2j b (a.getD i ""))
    let res := innerJs row i js (fun _ => 0) best
    coreLoop a b blo bhi (i + 1) steps res.1 res.2

/-- The first (backward) extension `while` loop of `find_longest_match`
(`bjunk` is empty with `isjunk = None`, so the `not isbjunk` test always
passes and the junk-extension loops never fire). -/
def extendBack (a b : List String) (alo blo : Nat) (bi bj bs : Nat) : Nat × Nat × Nat :=
  if h : alo < bi ∧ blo < bj ∧ a.getD (bi - 1) "" = b.getD (bj - 1) "" then
    extendBack a b alo blo (bi - 1) (bj - 1) (bs + 1)
  else (bi, bj, bs)
termination_by bi
decreasing_by omega

/-- The second (forward) extension `while` loop of `find_longest_match`. -/
def extendFwd (a b : List String) (ahi bhi : Nat) (bi bj bs : Nat) : Nat × Nat × Nat :=
  if h : bi + bs < ahi ∧ bj + bs < bhi ∧ a.getD (bi + bs) "" = b.getD (bj + bs) "" then
    extendFwd a b ahi bhi bi bj (bs + 1)
  else (bi, bj, bs)
termination_by ahi - (bi + bs)
decreasing_by omega

/-- Embedding of `SequenceMatcher.find_longest_match` (with
`isjunk = None`): the dynamic-programming core followed by the two
non-junk extension loops. -/
def findLongestMatch (a b : List String) (alo ahi blo bhi : Nat) : Nat × Nat × Nat :=
  let core := coreLoop a b blo bhi alo (ahi - alo) (fun _ => 0) (alo, blo, 0)
  let back := extendBack a b alo blo core.1 core.2.1 core.2.2
  extendFwd a b ahi bhi back.1 back.2.1 back.2.2


/-- Indices surviving the window checks lie in `[blo, bhi)`. -/
theorem windowJs_mem {blo bhi : Nat} {l : List Nat} {j : Nat}
    (h : j ∈ windowJs blo bhi l) : blo ≤ j ∧ j < bhi := by
  induction l with
  | nil => simp [windowJs] at h
  | cons x xs ih =>
    simp only [windowJs] at h
    split at h
    · exact ih h
    · split at h
      · simp at h
      · rcases List.mem_cons.mp h with rfl | h
        · omega
        · exact ih h

/-- Invariant of a `j2len` row after the first `iCur - alo` outer-loop
steps: a nonzero entry at `j` means a match inside the window ending at
column `j`, of length at most `j + 1 - blo` and at most `iCur - alo`. -/
def RowInv (alo blo bhi iCur : Nat) (row : Nat → Nat) : Prop :=
  ∀ j, row j ≠ 0 → blo ≤ j ∧ j < bhi ∧ row j + blo ≤ j + 1 ∧ row j + alo ≤ iCur

/-- Invariant of the running best match after the first `iEnd - alo`
outer-loop steps. -/
def BestInv (alo blo bhi iEnd : Nat) (best : Nat × Nat × Nat) : Prop :=
  (best.2.2 = 0 → best = (alo, blo, 0)) ∧
  (best.2.2 ≠ 0 →
    alo ≤ best.1 ∧ best.1 + best.2.2 ≤ iEnd ∧ blo ≤ best.2.1 ∧ best.2.1 + best.2.2 ≤ bhi)

theorem BestInv.mono {alo blo bhi iEnd iEnd' : Nat} {best : Nat × Nat × Nat}
    (h : BestInv alo blo bhi iEnd best) (hle : iEnd ≤ iEnd') :
    BestInv alo blo bhi iEnd' best := by
  refine ⟨h.1, fun hne => ?_⟩
  have := h.2 hne
  exact ⟨this.1, this.2.1.trans hle, this.2.2.1, this.2.2.2⟩

/-- The inner loop preserves the row and best-match invariants. -/
theorem innerJs_inv {alo blo bhi : Nat} {row : Nat → Nat} {i : Nat} :
    ∀ (js : List Nat) (newRow : Nat → Nat) (best : Nat × Nat × Nat),
    alo ≤ i →
    RowInv alo blo bhi i row →
    (∀ j ∈ js, blo ≤ j ∧ j < bhi) →
    RowInv alo blo bhi (i + 1) newRow →
    BestInv alo blo bhi (i + 1) best →
    RowInv alo blo bhi (i + 1) (innerJs row i js newRow best).1 ∧
    BestInv alo blo bhi (i + 1) (innerJs row i js newRow best).2 := by
  intro js
  induction js with
  | nil => intro newRow best _ _ _ hnew hbest; exact ⟨hnew, hbest⟩
  | cons j js ih =>
    intro newRow best hi hrow hjs hnew hbest
    have hj : blo ≤ j ∧ j < bhi := hjs j (List.mem_cons_self j js)
    have hk1 : ((if j = 0 then 0 else row (j - 1)) + 1) + blo ≤ j + 1 := by
      split
      · omega
      · by_cases hz : row (j - 1) = 0
        · rw [hz]; omega
        · have := hrow (j - 1) hz
          omega
    have hk2 : ((if j = 0 then 0 else row (j - 1)) + 1) + alo ≤ i + 1 := by
      split
      · omega
      · by_cases hz : row (j - 1) = 0
        · rw [hz]; omega
        · have := hrow (j - 1) hz
          omega
    simp only [innerJs]
    generalize hK : (if j = 0 then 0 else row (j - 1)) + 1 = K at hk1 hk2
    have hKpos : 1 ≤ K := by omega
    have hrow' : RowInv alo blo bhi (i + 1) (rowUpdate newRow j K) := by
      intro j' hj'
      unfold rowUpdate at hj' ⊢
      by_cases he : j' = j
      · rw [if_pos he] at hj' ⊢
        subst he
        exact ⟨hj.1, hj.2, by omega, by omega⟩
      · rw [if_neg he] at hj' ⊢
        exact hnew j' hj'
    have hbest' : BestInv alo blo bhi (i + 1)
        (if best.2.2 < K then (i + 1 - K, j + 1 - K, K) else best) := by
      split
      · refine ⟨fun h0 => absurd (show K = 0 from h0) (by omega), fun _ => ?_⟩
        exact ⟨show alo ≤ i + 1 - K by omega,
               show (i + 1 - K) + K ≤ i + 1 by omega,
               show blo ≤ j + 1 - K by omega,
               show (j + 1 - K) + K ≤ bhi by omega⟩
      · exact hbest
    exact ih _ _ hi hrow (fun x hx => hjs x (List.mem_cons_of_mem _ hx)) hrow' hbest'

/-- The outer loop preserves the best-match invariant. -/
theorem coreLoop_inv {a b : List String} {alo blo bhi : Nat} :
    ∀ (steps i : Nat) (row : Nat → Nat) (best : Nat × Nat × Nat),
    alo ≤ i →
    RowInv alo blo bhi i row →
    BestInv alo blo bhi i best →
    BestInv alo blo bhi (i + steps) (coreLoop a b blo bhi i steps row best) := by
  intro steps
  induction steps with
  | zero => intro i row best _ _ hbest; simpa [coreLoop] using hbest
  | succ steps ih =>
    intro i row best hi hrow hbest
    simp only [coreLoop]
    have hjs : ∀ j ∈ windowJs blo bhi (b2j b (a.getD i "")), blo ≤ j ∧ j < bhi :=
      fun j hj => windowJs_mem hj
    have hzero : RowInv alo blo bhi (i + 1) (fun _ => 0) := by
      intro j hj; simp at hj
    have h := @innerJs_inv alo blo bhi row i
      (windowJs blo bhi (b2j b (a.getD i ""))) (fun _ => 0) best
      hi hrow hjs hzero (hbest.mono (by omega))
    have := ih (i + 1) _ _ (by omega) h.1 h.2
    have harith : i + 1 + steps = i + (steps + 1) := by omega
    rwa [harith] at this

/-- The backward extension keeps both endpoints fixed and never crosses
the lower window bounds. -/
theorem extendBack_spec (a b : List String) (alo blo : Nat) :
    ∀ bi bj bs, alo ≤ bi → blo ≤ bj →
    alo ≤ (extendBack a b alo blo bi bj bs).1 ∧
    blo ≤ (extendBack a b alo blo bi bj bs).2.1 ∧
    (extendBack a b alo blo bi bj bs).1 + (extendBack a b alo blo bi bj bs).2.2 = bi + bs ∧
    (extendBack a b alo blo bi bj bs).2.1 + (extendBack a b alo blo bi bj bs).2.2 = bj + bs ∧
    bs ≤ (extendBack a b alo blo bi bj bs).2.2 := by
  intro bi
  induction bi using Nat.strong_induction_on with
  | _ bi ih =>
    intro bj bs hbi hbj
    rw [extendBack]
    split
    · next h =>
      have h1 := ih (bi - 1) (by omega) (bj - 1) (bs + 1) (by omega) (by omega)
      refine ⟨h1.1, h1.2.1, ?_, ?_, ?_⟩ <;> omega
    · exact ⟨hbi, hbj, rfl, rfl, le_rfl⟩

/-- The forward extension keeps the start fixed; the size either stays
put or ends within the window bounds. -/
theorem extendFwd_spec (a b : List String) (ahi bhi : Nat) (bi bj : Nat) :
    ∀ bs,
    (extendFwd a b ahi bhi bi bj bs).1 = bi ∧
    (extendFwd a b ahi bhi bi bj bs).2.1 = bj ∧
    bs ≤ (extendFwd a b ahi bhi bi bj bs).2.2 ∧
    ((extendFwd a b ahi bhi bi bj bs).2.2 = bs ∨
      (bi + (extendFwd a b ahi bhi bi bj bs).2.2 ≤ ahi ∧
       bj + (extendFwd a b ahi bhi bi bj bs).2.2 ≤ bhi)) := by
  suffices H : ∀ n bs, ahi - (bi + bs) ≤ n →
      (extendFwd a b ahi bhi bi bj bs).1 = bi ∧
      (extendFwd a b ahi bhi bi bj bs).2.1 = bj ∧
      bs ≤ (extendFwd a b ahi bhi bi bj bs).2.2 ∧
      ((extendFwd a b ahi bhi bi bj bs).2.2 = bs ∨
        (bi + (extendFwd a b ahi bhi bi bj bs).2.2 ≤ ahi ∧
         bj + (extendFwd a b ahi bhi bi bj bs).2.2 ≤ bhi)) by
    intro bs; exact H _ bs le_rfl
  intro n
  induction n with
  | zero =>
    intro bs hn
    rw [extendFwd]
    split
    · next h => omega
    · exact ⟨rfl, rfl, le_rfl, Or.inl rfl⟩
  | succ n ih =>
    intro bs hn
    rw [extendFwd]
    split
    · next h =>
      have h1 := ih (bs + 1) (by omega)
      refine ⟨h1.1, h1.2.1, by omega, ?_⟩
      rcases h1.2.2.2 with he | hbd
      · right; omega
      · right; exact hbd
    · exact ⟨rfl, rfl, le_rfl, Or.inl rfl⟩

/-- A nonzero result of `find_longest_match` lies inside the window:
`alo <= i`, `i + k <= ahi`, `blo <= j`, `j + k <= bhi`. -/
theorem flm_pos_bounds (a b : List String) (alo ahi blo bhi : Nat)
    (h : (findLongestMatch a b alo ahi blo bhi).2.2 ≠ 0) :
    alo ≤ (findLongestMatch a b alo ahi blo bhi).1 ∧
    (findLongestMatch a b alo ahi blo bhi).1 + (findLongestMatch a b alo ahi blo bhi).2.2 ≤ ahi ∧
    blo ≤ (findLongestMatch a b alo ahi blo bhi).2.1 ∧
    (findLongestMatch a b alo ahi blo bhi).2.1 + (findLongestMatch a b alo ahi blo bhi).2.2 ≤ bhi := by
  have hzero : RowInv alo blo bhi alo (fun _ => 0) := fun j hj => absurd rfl hj
  have hbest0 : BestInv alo blo bhi alo (alo, blo, 0) :=
    ⟨fun _ => rfl, fun h0 => absurd rfl h0⟩
  have hcore0 := coreLoop_inv (a := a) (b := b) (ahi - alo) alo (fun _ => 0) (alo, blo, 0)
    le_rfl hzero hbest0
  have hcore : BestInv alo blo bhi ahi
      (coreLoop a b blo bhi alo (ahi - alo) (fun _ => 0) (alo, blo, 0)) := by
    rcases Nat.le_total alo ahi with hle | hle
    · have harith : alo + (ahi - alo) = ahi := by omega
      rwa [harith] at hcore0
    · have hsteps : ahi - alo = 0 := by omega
      rw [hsteps]
      exact ⟨fun _ => rfl, fun h0 => absurd rfl h0⟩
  simp only [findLongestMatch] at h ⊢
  revert h
  generalize hcg : coreLoop a b blo bhi alo (ahi - alo) (fun _ => 0) (alo, blo, 0) = core at hcore ⊢
  intro h
  by_cases hc0 : core.2.2 = 0
  · have hcv : core = (alo, blo, 0) := hcore.1 hc0
    simp only [hcv] at h ⊢
    have hback : extendBack a b alo blo alo blo 0 = (alo, blo, 0) := by
      rw [extendBack]
      split
      · next hcond => exact absurd hcond.1 (lt_irrefl alo)
      · rfl
    simp only [hback] at h ⊢
    have hfwd := extendFwd_spec a b ahi bhi alo blo 0
    rcases hfwd.2.2.2 with he | hbd
    · exact absurd he h
    · rw [hfwd.1, hfwd.2.1]
      omega
  · have hb := hcore.2 hc0
    have hback := extendBack_spec a b alo blo core.1 core.2.1 core.2.2 hb.1 hb.2.2.1
    have hfwd := extendFwd_spec a b ahi bhi
      (extendBack a b alo blo core.1 core.2.1 core.2.2).1
      (extendBack a b alo blo core.1 core.2.1 core.2.2).2.1
      (extendBack a b alo blo core.1 core.2.1 core.2.2).2.2
    rcases hfwd.2.2.2 with he | hbd
    · rw [hfwd.1, hfwd.2.1]
      omega
    · rw [hfwd.1, hfwd.2.1]
      omega

/-- The worklist loop of `get_matching_blocks`, re-expressed as a
recursion that emits blocks in ascending order.  Python pushes the two
sub-windows on a LIFO stack and finally sorts the collected triples;
since every block found in the left sub-window starts strictly below
`i` and every block of the right sub-window starts at or above `i + k`,
emitting left blocks, then the found block, then right blocks yields
exactly the sorted order. -/
def matchingRec (a b : List String) (alo ahi blo bhi : Nat) : List (Nat × Nat × Nat) :=
  if hk : (findLongestMatch a b alo ahi blo bhi).2.2 = 0 then []
  else
    matchingRec a b
        alo (findLongestMatch a b alo ahi blo bhi).1
        blo (findLongestMatch a b alo ahi blo bhi).2.1 ++
      findLongestMatch a b alo ahi blo bhi ::
        matchingRec a b
          ((findLongestMatch a b alo ahi blo bhi).1 + (findLongestMatch a b alo ahi blo bhi).2.2) ahi
          ((findLongestMatch a b alo ahi blo bhi).2.1 + (findLongestMatch a b alo ahi blo bhi).2.2) bhi
termination_by ahi - alo
decreasing_by
  · have := flm_pos_bounds a b alo ahi blo bhi hk
    omega
  · have := flm_pos_bounds a b alo ahi blo bhi hk
    omega

/-- The adjacency-merging loop of `get_matching_blocks`, with the
pending block `(i1, j1, k1)` as accumulator (initially `(0, 0, 0)`). -/
def mergeLoop : Nat → Nat → Nat → List (Nat × Nat × Nat) → List (Nat × Nat × Nat)
  | i1, j1, k1, [] => if k1 ≠ 0 then [(i1, j1, k1)] else []
  | i1, j1, k1, (i2, j2, k2) :: rest =>
    if i1 + k1 = i2 ∧ j1 + k1 = j2 then mergeLoop i1 j1 (k1 + k2) rest
    else (if k1 ≠ 0 then [(i1, j1, k1)] else []) ++ mergeLoop i2 j2 k2 rest

/-- Embedding of `SequenceMatcher.get_matching_blocks`: collect maximal
matches recursively, merge adjacent blocks, and append the terminal
dummy block `(len(a), len(b), 0)`. -/
def get_matching_blocks (a b : List String) : List (Nat × Nat × Nat) :=
  mergeLoop 0 0 0 (matchingRec a b 0 a.length 0 b.length) ++ [(a.length, b.length, 0)]

/-- One opcode `(tag, i1, i2, j1, j2)` of `SequenceMatcher.get_opcodes`. -/
structure Opcode where
  tag : String
  i1 : Nat
  i2 : Nat
  j1 : Nat
  j2 : Nat
deriving DecidableEq, Repr

/-- The loop of `get_opcodes`: walk the matching blocks with the running
position `(i, j)`, emitting a `replace`/`delete`/`insert` opcode for the
gap before each block and an `equal` opcode for the block itself. -/
def opcodeLoop : Nat → Nat → List (Nat × Nat × Nat) → List Opcode
  | _, _, [] => []
  | i, j, (ai, bj, size) :: rest =>
    let tag : String :=
      if i < ai ∧ j < bj then "replace"
      else if i < ai then "delete"
      else if j < bj then "insert"
      else ""
    (if tag ≠ "" then [⟨tag, i, ai, j, bj⟩] else []) ++
      (if size ≠ 0 then [⟨"equal", ai, ai + size, bj, bj + size⟩] else []) ++
      opcodeLoop (ai + size) (bj + size) rest

/-- Embedding of `SequenceMatcher.get_opcodes`. -/
def get_opcodes (a b : List String) : List Opcode :=
  opcodeLoop 0 0 (get_matching_blocks a b)

/-- Embedding of the change-detection loop of app.py:
`changed_sentences.extend(polished_sentences[j1:j2])` for every opcode
whose tag is not `"equal"`. -/
def changed_sentences (orig_sentences polished_sentences : List String) : List String :=
  (get_opcodes orig_sentences polished_sentences).foldl
    (fun acc op =>
      if op.tag ≠ "equal" then acc ++ ((polished_sentences.drop op.j1).take (op.j2 - op.j1))
      else acc)
    []

/-- Outcome of one press of the Polish button. -/
structure ActionOutcome where
  warned : Bool
  calls : Nat
  panel : Option String
deriving Repr

/-- Embedding of the button handler of app.py.  The external LLM is an
oracle `llm : Nat → String` giving the raw text of the k-th
`gemini_generate` call of this action; call 0 is the polish call and
`gemini_generate` strips its raw response.  `calls` counts the
`gemini_generate` invocations actually issued. -/
def runPolishAction (llm : Nat → String) (user_input : String) : ActionOutcome :=
  if pyStrip user_input = "" then
    { warned := true, calls := 0, panel := none }
  else
    let polished_text := pyStrip (llm 0)
    let orig_sentences := split_sentences user_input
    let polished_sentences := split_sentences polished_text
    let changed := changed_sentences orig_sentences polished_sentences
    let res := classifyLoop llm changed 1 []
    let polished_html := highlight_sentences polished_sentences res.2
    { warned := false, calls := res.1, panel := some polished_html }

/-- Blocks form a monotone chain starting at `(ca, cb)` and ending
within `(ahi, bhi)`: each block starts at or after the end of the
previous one. -/
def ChainLe (ahi bhi : Nat) : Nat → Nat → List (Nat × Nat × Nat) → Prop
  | ca, cb, [] => ca ≤ ahi ∧ cb ≤ bhi
  | ca, cb, (ai, bj, k) :: rest => ca ≤ ai ∧ cb ≤ bj ∧ ChainLe ahi bhi (ai + k) (bj + k) rest

/-- Monotone chain of blocks, without the upper-bound condition. -/
def ChainPos : Nat → Nat → List (Nat × Nat × Nat) → Prop
  | _, _, [] => True
  | ca, cb, (ai, bj, k) :: rest => ca ≤ ai ∧ cb ≤ bj ∧ ChainPos (ai + k) (bj + k) rest

/-- End position (on the `b` side) after replaying a block list from `j`. -/
def bEnd : Nat → List (Nat × Nat × Nat) → Nat
  | j, [] => j
  | _, (_, bj, k) :: rest => bEnd (bj + k) rest

theorem bEnd_append (j : Nat) (L R : List (Nat × Nat × Nat)) :
    bEnd j (L ++ R) = bEnd (bEnd j L) R := by
  induction L generalizing j with
  | nil => rfl
  | cons x rest ih =>
    obtain ⟨ai, bj, k⟩ := x
    simp only [List.cons_append, bEnd]
    exact ih (bj + k)

theorem ChainLe.weaken {ahi bhi ca cb ca' cb' : Nat} {L : List (Nat × Nat × Nat)}
    (h : ChainLe ahi bhi ca cb L) (ha : ca' ≤ ca) (hb : cb' ≤ cb) :
    ChainLe ahi bhi ca' cb' L := by
  cases L with
  | nil => exact ⟨ha.trans h.1, hb.trans h.2⟩
  | cons x rest =>
    obtain ⟨ai, bj, k⟩ := x
    exact ⟨ha.trans h.1, hb.trans h.2.1, h.2.2⟩

theorem ChainLe.append {ma mb ahi bhi ca cb : Nat} {L R : List (Nat × Nat × Nat)}
    (hL : ChainLe ma mb ca cb L) (hR : ChainLe ahi bhi ma mb R) :
    ChainLe ahi bhi ca cb (L ++ R) := by
  induction L generalizing ca cb with
  | nil => exact hR.weaken hL.1 hL.2
  | cons x rest ih =>
    obtain ⟨ai, bj, k⟩ := x
    exact ⟨hL.1, hL.2.1, ih hL.2.2⟩

theorem ChainLe.toChainPos {ahi bhi ca cb : Nat} {L : List (Nat × Nat × Nat)}
    (h : ChainLe ahi bhi ca cb L) : ChainPos ca cb L := by
  induction L generalizing ca cb with
  | nil => trivial
  | cons x rest ih =>
    obtain ⟨ai, bj, k⟩ := x
    exact ⟨h.1, h.2.1, ih h.2.2⟩

theorem ChainPos.bEnd_ge {ca cb : Nat} {L : List (Nat × Nat × Nat)}
    (h : ChainPos ca cb L) : cb ≤ bEnd cb L := by
  induction L generalizing ca cb with
  | nil => exact le_rfl
  | cons x rest ih =>
    obtain ⟨ai, bj, k⟩ := x
    have h1 := ih h.2.2
    have h2 : cb ≤ bj := h.2.1
    simp only [bEnd]
    omega

/-- The blocks collected by `matchingRec` form a monotone chain inside
the window. -/
theorem matchingRec_chain (a b : List String) :
    ∀ (n alo ahi blo bhi : Nat), ahi - alo ≤ n → alo ≤ ahi → blo ≤ bhi →
    ChainLe ahi bhi alo blo (matchingRec a b alo ahi blo bhi) := by
  intro n
  induction n with
  | zero =>
    intro alo ahi blo bhi hn ha hb
    rw [matchingRec]
    split
    · exact ⟨ha, hb⟩
    · next hk =>
      have hbd := flm_pos_bounds a b alo ahi blo bhi hk
      omega
  | succ n ih =>
    intro alo ahi blo bhi hn ha hb
    rw [matchingRec]
    split
    · exact ⟨ha, hb⟩
    · next hk =>
      have hbd := flm_pos_bounds a b alo ahi blo bhi hk
      revert hk hbd
      generalize findLongestMatch a b alo ahi blo bhi = m
      obtain ⟨m1, m2, mk⟩ := m
      intro hk hbd
      simp only at hk hbd ⊢
      have hkpos : 1 ≤ mk := by omega
      have hleft : ChainLe m1 m2 alo blo (matchingRec a b alo m1 blo m2) :=
        ih alo m1 blo m2 (by omega) (by omega) (by omega)
      have hright : ChainLe ahi bhi (m1 + mk) (m2 + mk)
          (matchingRec a b (m1 + mk) ahi (m2 + mk) bhi) :=
        ih (m1 + mk) ahi (m2 + mk) bhi (by omega) (by omega) (by omega)
      exact hleft.append ⟨le_rfl, le_rfl, hright⟩

/-- The adjacency merge preserves the chain structure, with the pending
block `(i1, j1, k1)` prepended. -/
theorem mergeLoop_chain (ahi bhi : Nat) :
    ∀ (blocks : List (Nat × Nat × Nat)) (i1 j1 k1 : Nat),
    ChainLe ahi bhi (i1 + k1) (j1 + k1) blocks →
    ChainLe ahi bhi i1 j1 (mergeLoop i1 j1 k1 blocks) := by
  intro blocks
  induction blocks with
  | nil =>
    intro i1 j1 k1 h
    simp only [mergeLoop]
    split
    · exact ⟨le_rfl, le_rfl, h.1, h.2⟩
    · exact ⟨le_trans (Nat.le_add_right _ _) h.1, le_trans (Nat.le_add_right _ _) h.2⟩
  | cons x rest ih =>
    intro i1 j1 k1 h
    obtain ⟨i2, j2, k2⟩ := x
    have h1 : i1 + k1 ≤ i2 := h.1
    have h2 : j1 + k1 ≤ j2 := h.2.1
    have h3 : ChainLe ahi bhi (i2 + k2) (j2 + k2) rest := h.2.2
    simp only [mergeLoop]
    split
    · next he =>
      exact ih i1 j1 (k1 + k2) (by
        have : i1 + (k1 + k2) = i2 + k2 := by omega
        have hb' : j1 + (k1 + k2) = j2 + k2 := by omega
        rw [this, hb']
        exact h3)
    · have hrec := ih i2 j2 k2 h3
      split
      · exact ⟨le_rfl, le_rfl, hrec.weaken h1 h2⟩
      · next hk10 =>
        have hk1 : k1 = 0 := by
          by_contra hc
          exact hk10 hc
        exact (hrec.weaken (by omega) (by omega) : ChainLe ahi bhi i1 j1 _)

theorem chainLe_append_term {ahi bhi ca cb : Nat} {L : List (Nat × Nat × Nat)}
    (h : ChainLe ahi bhi ca cb L) : ChainPos ca cb (L ++ [(ahi, bhi, 0)]) := by
  induction L generalizing ca cb with
  | nil => exact ⟨h.1, h.2, trivial⟩
  | cons x rest ih =>
    obtain ⟨ai, bj, k⟩ := x
    exact ⟨h.1, h.2.1, ih h.2.2⟩

/-- The matching blocks of `get_matching_blocks` form a monotone chain
from `(0, 0)`. -/
theorem gmb_chainPos (a b : List String) : ChainPos 0 0 (get_matching_blocks a b) := by
  have hm := matchingRec_chain a b a.length 0 a.length 0 b.length
    (by omega) (Nat.zero_le _) (Nat.zero_le _)
  have hmerge := mergeLoop_chain a.length b.length
    (matchingRec a b 0 a.length 0 b.length) 0 0 0 hm
  exact chainLe_append_term hmerge

/-- Replaying the matching blocks of `get_matching_blocks` from 0 ends
at `len(b)`. -/
theorem gmb_bEnd (a b : List String) : bEnd 0 (get_matching_blocks a b) = b.length := by
  rw [get_matching_blocks, bEnd_append]
  simp [bEnd]

theorem range'_glue (j bj size E : Nat) (h1 : j ≤ bj) (h2 : bj + size ≤ E) :
    List.range' j (bj - j) ++ (List.range' bj size ++ List.range' (bj + size) (E - (bj + size))) =
    List.range' j (E - j) := by
  obtain ⟨m, rfl⟩ : ∃ m, bj = j + m := ⟨bj - j, by omega⟩
  obtain ⟨p, rfl⟩ : ∃ p, E = j + m + size + p := ⟨E - (j + m + size), by omega⟩
  have e1 : j + m - j = m := by omega
  have e2 : j + m + size + p - (j + m + size) = p := by omega
  have e3 : j + m + size + p - j = m + size + p := by omega
  rw [e1, e2, e3]
  rw [List.range'_append_1 (j + m) size p]
  have e4 : j + m = j + m := rfl
  rw [List.range'_append_1 j m (p + size)]
  congr 1
  omega

/-- Tiling: the b-side spans of the opcodes emitted by the loop tile the
interval from the running position `j` to the end of the block list. -/
theorem opcodeLoop_tiling :
    ∀ (blocks : List (Nat × Nat × Nat)) (i j : Nat), ChainPos i j blocks →
    (opcodeLoop i j blocks).flatMap (fun op => List.range' op.j1 (op.j2 - op.j1)) =
      List.range' j (bEnd j blocks - j) := by
  intro blocks
  induction blocks with
  | nil =>
    intro i j _
    simp [opcodeLoop, bEnd]
  | cons x rest ih =>
    intro i j h
    obtain ⟨ai, bj, size⟩ := x
    have hia : i ≤ ai := h.1
    have hjb : j ≤ bj := h.2.1
    have hrest : ChainPos (ai + size) (bj + size) rest := h.2.2
    have hrec := ih (ai + size) (bj + size) hrest
    have hbe : bj + size ≤ bEnd (bj + size) rest := hrest.bEnd_ge
    simp only [opcodeLoop, bEnd]
    rw [List.flatMap_append, List.flatMap_append, hrec]
    have heq : (if size ≠ 0 then [(⟨"equal", ai, ai + size, bj, bj + size⟩ : Opcode)]
        else []).flatMap (fun op => List.range' op.j1 (op.j2 - op.j1)) =
        List.range' bj size := by
      split
      · simp only [List.flatMap_cons, List.flatMap_nil, List.append_nil]
        congr 1
        omega
      · next hs =>
        have : size = 0 := by omega
        simp [this]
    rw [heq]
    by_cases h1 : i < ai <;> by_cases h2 : j < bj
    · have : ((i < ai ∧ j < bj) : Prop) := ⟨h1, h2⟩
      simp only [if_pos this]
      have hne : ("replace" : String) ≠ "" := by decide
      simp only [if_pos hne, List.flatMap_cons, List.flatMap_nil, List.append_nil]
      rw [List.append_assoc]
      exact range'_glue j bj size _ hjb hbe
    · have hbj : bj = j := by omega
      subst hbj
      have hcond : ¬((i < ai ∧ bj < bj) : Prop) := by omega
      simp only [if_neg hcond, if_pos h1]
      have hne : ("delete" : String) ≠ "" := by decide
      simp only [if_pos hne, List.flatMap_cons, List.flatMap_nil, List.append_nil]
      simpa using range'_glue bj bj size _ le_rfl hbe
    · have hcond : ¬((i < ai ∧ j < bj) : Prop) := by omega
      simp only [if_neg hcond, if_neg h1, if_pos h2]
      have hne : ("insert" : String) ≠ "" := by decide
      simp only [if_pos hne, List.flatMap_cons, List.flatMap_nil, List.append_nil]
      rw [List.append_assoc]
      exact range'_glue j bj size _ hjb hbe
    · have hbj : bj = j := by omega
      subst hbj
      have hcond : ¬((i < ai ∧ bj < bj) : Prop) := by omega
      simp only [if_neg hcond, if_neg h1, if_neg h2]
      have hne : ¬(("" : String) ≠ "") := by decide
      simp only [if_neg hne, List.flatMap_nil, List.nil_append]
      simpa using range'_glue bj bj size _ le_rfl hbe

/-- Claim C9: for every pair of sentence sequences, the opcodes of the
diff partition the polished sequence — concatenating the polished-side
index spans of all opcodes (equal and non-equal), in order, yields every
polished position exactly once: it is exactly `[0, ..., len(b) - 1]`.
Hence each polished sentence is classified as changed or unchanged, and
never both or neither. -/
theorem opcodes_partition_polished (a b : List String) :
    (get_opcodes a b).flatMap (fun op => List.range' op.j1 (op.j2 - op.j1)) =
      List.range b.length := by
  have h := opcodeLoop_tiling (get_matching_blocks a b) 0 0 (gmb_chainPos a b)
  rw [get_opcodes, h, gmb_bEnd, List.range_eq_range', Nat.sub_zero]

/-- Opcode spans (on the polished side) are in order: each opcode's span
starts at or after the running position and ends where the next starts
looking. -/
def OrderedSpans : Nat → List Opcode → Prop
  | _, [] => True
  | j, op :: rest => j ≤ op.j1 ∧ op.j1 ≤ op.j2 ∧ OrderedSpans op.j2 rest

theorem OrderedSpans.relax {j j' : Nat} {l : List Opcode}
    (h : OrderedSpans j' l) (hle : j ≤ j') : OrderedSpans j l := by
  cases l with
  | nil => trivial
  | cons op rest => exact ⟨hle.trans h.1, h.2.1, h.2.2⟩

/-- The opcodes emitted by the loop have ordered polished-side spans. -/
theorem opcodeLoop_ordered :
    ∀ (blocks : List (Nat × Nat × Nat)) (i j : Nat), ChainPos i j blocks →
    OrderedSpans j (opcodeLoop i j blocks) := by
  intro blocks
  induction blocks with
  | nil => intro i j _; trivial
  | cons x rest ih =>
    intro i j h
    obtain ⟨ai, bj, size⟩ := x
    have hia : i ≤ ai := h.1
    have hjb : j ≤ bj := h.2.1
    have hrest : ChainPos (ai + size) (bj + size) rest := h.2.2
    have hrec := ih (ai + size) (bj + size) hrest
    simp only [opcodeLoop]
    have heq : OrderedSpans bj
        ((if size ≠ 0 then [(⟨"equal", ai, ai + size, bj, bj + size⟩ : Opcode)] else []) ++
          opcodeLoop (ai + size) (bj + size) rest) := by
      split
      · simp only [List.cons_append, List.nil_append]
        exact ⟨le_rfl, Nat.le_add_right _ _, hrec⟩
      · next hs =>
        have hz : size = 0 := by omega
        simp only [List.nil_append]
        exact hrec.relax (by omega)
    by_cases h1 : i < ai <;> by_cases h2 : j < bj
    · have : ((i < ai ∧ j < bj) : Prop) := ⟨h1, h2⟩
      simp only [if_pos this]
      have hne : ("replace" : String) ≠ "" := by decide
      simp only [if_pos hne, List.cons_append, List.nil_append]
      exact ⟨le_rfl, hjb, heq⟩
    · have hbj : bj = j := by omega
      subst hbj
      have hcond : ¬((i < ai ∧ bj < bj) : Prop) := by omega
      simp only [if_neg hcond, if_pos h1]
      have hne : ("delete" : String) ≠ "" := by decide
      simp only [if_pos hne, List.cons_append, List.nil_append]
      exact ⟨le_rfl, le_rfl, heq⟩
    · have hcond : ¬((i < ai ∧ j < bj) : Prop) := by omega
      simp only [if_neg hcond, if_neg h1, if_pos h2]
      have hne : ("insert" : String) ≠ "" := by decide
      simp only [if_pos hne, List.cons_append, List.nil_append]
      exact ⟨le_rfl, hjb, heq⟩
    · have hbj : bj = j := by omega
      subst hbj
      have hcond : ¬((i < ai ∧ bj < bj) : Prop) := by omega
      simp only [if_neg hcond, if_neg h1, if_neg h2]
      have hne : ¬(("" : String) ≠ "") := by decide
      simp only [if_neg hne, List.nil_append]
      exact heq

/-- Whether polished position `jx` is covered by the span of some
`"equal"` opcode. -/
def coveredByEqual (ops : List Opcode) (jx : Nat) : Bool :=
  ops.any (fun op => op.tag == "equal" && decide (op.j1 ≤ jx) && decide (jx < op.j2))

theorem coveredByEqual_low {j : Nat} {ops : List Opcode}
    (h : OrderedSpans j ops) {jx : Nat} (hjx : jx < j) :
    coveredByEqual ops jx = false := by
  induction ops generalizing j with
  | nil => rfl
  | cons op rest ih =>
    simp only [coveredByEqual, List.any_cons, Bool.or_eq_false_iff]
    constructor
    · have : ¬(op.j1 ≤ jx) := by
        have := h.1
        omega
      simp [this]
    · exact ih h.2.2 (by have := h.1; have := h.2.1; omega)

/-- Every listed opcode's span starts at or after the chain start. -/
theorem OrderedSpans.start_le {j : Nat} {ops : List Opcode} (h : OrderedSpans j ops)
    {op : Opcode} (hmem : op ∈ ops) : j ≤ op.j1 ∧ op.j1 ≤ op.j2 := by
  induction ops generalizing j with
  | nil => cases hmem
  | cons op' rest ih =>
    rcases List.mem_cons.mp hmem with rfl | hmem'
    · exact ⟨h.1, h.2.1⟩
    · have := ih h.2.2 hmem'
      have h1 := h.1
      have h2 := h.2.1
      exact ⟨by omega, this.2⟩

/-- For a position inside the span of a listed opcode, coverage by an
equal opcode holds exactly when that opcode's tag is `"equal"`. -/
theorem coveredByEqual_mem {j : Nat} {ops : List Opcode}
    (h : OrderedSpans j ops) {op : Opcode} (hmem : op ∈ ops) {jx : Nat}
    (h1 : op.j1 ≤ jx) (h2 : jx < op.j2) :
    coveredByEqual ops jx = (op.tag == "equal") := by
  induction ops generalizing j with
  | nil => cases hmem
  | cons op' rest ih =>
    rcases List.mem_cons.mp hmem with rfl | hmem'
    · have hlow : coveredByEqual rest jx = false := coveredByEqual_low h.2.2 h2
      simp only [coveredByEqual, List.any_cons] at hlow ⊢
      rw [hlow, Bool.or_false]
      simp [h1, h2]
    · have hge : op'.j2 ≤ op.j1 := (OrderedSpans.start_le h.2.2 hmem').1
      have hhead : ¬(jx < op'.j2) := by omega
      simp only [coveredByEqual, List.any_cons]
      have : (op'.tag == "equal" && decide (op'.j1 ≤ jx) && decide (jx < op'.j2)) = false := by
        simp [hhead]
      rw [this, Bool.false_or]
      exact ih h.2.2 hmem'

theorem foldl_changed (b : List String) :
    ∀ (ops : List Opcode) (acc : List String),
    ops.foldl (fun acc op =>
        if op.tag ≠ "equal" then acc ++ (b.drop op.j1).take (op.j2 - op.j1) else acc) acc
      = acc ++ ops.flatMap (fun op =>
          if op.tag ≠ "equal" then (b.drop op.j1).take (op.j2 - op.j1) else []) := by
  intro ops
  induction ops with
  | nil => intro acc; simp
  | cons op rest ih =>
    intro acc
    simp only [List.foldl_cons, List.flatMap_cons]
    rw [ih]
    split
    · rw [List.append_assoc]
    · simp

/-- The change-detection loop in `flatMap` form. -/
theorem changed_eq_flatMap (a b : List String) :
    changed_sentences a b =
      (get_opcodes a b).flatMap
        (fun op => if op.tag ≠ "equal" then (b.drop op.j1).take (op.j2 - op.j1) else []) := by
  rw [changed_sentences, foldl_changed, List.nil_append]

theorem map_getD_range' (b : List String) :
    ∀ (n s : Nat), s + n ≤ b.length →
    (List.range' s n).map (fun jx => b.getD jx "") = (b.drop s).take n := by
  intro n
  induction n with
  | zero => intro s _; simp
  | succ n ih =>
    intro s h
    rw [List.range'_succ]
    simp only [List.map_cons]
    rw [ih (s + 1) (by omega)]
    have hs : s < b.length := by omega
    rw [List.drop_eq_getElem_cons hs, List.take_succ_cons]
    congr 1
    simp [List.getElem?_eq_getElem hs]

/-- The change detector computes exactly the polished sentences at
positions not covered by any `"equal"` opcode span, in polished order
with duplicates preserved. -/
theorem changed_eq_filter (a b : List String) :
    changed_sentences a b =
      ((List.range b.length).filter
        (fun jx => !coveredByEqual (get_opcodes a b) jx)).map (fun jx => b.getD jx "") := by
  have hord : OrderedSpans 0 (get_opcodes a b) :=
    opcodeLoop_ordered _ 0 0 (gmb_chainPos a b)
  rw [← opcodes_partition_polished a b, List.filter_flatMap, List.map_flatMap,
    changed_eq_flatMap]
  apply List.flatMap_congr
  intro op hop
  have hspan := hord.start_le hop
  have hcov : ∀ jx, op.j1 ≤ jx → jx < op.j2 →
      coveredByEqual (get_opcodes a b) jx = (op.tag == "equal") := by
    intro jx hx1 hx2
    exact coveredByEqual_mem hord hop hx1 hx2
  have hmemspan : ∀ jx, op.j1 ≤ jx → jx < op.j2 →
      jx ∈ List.range' op.j1 (op.j2 - op.j1) := by
    intro jx hx1 hx2
    rw [List.mem_range']
    exact ⟨jx - op.j1, by omega, by omega⟩
  by_cases htag : op.tag = "equal"
  · rw [if_neg (by simp [htag])]
    have hnil : (List.range' op.j1 (op.j2 - op.j1)).filter
        (fun jx => !coveredByEqual (get_opcodes a b) jx) = [] := by
      rw [List.filter_eq_nil_iff]
      intro jx hjx
      obtain ⟨d, hd, rfl⟩ := List.mem_range'.mp hjx
      rw [hcov _ (by omega) (by omega)]
      simp [htag]
    rw [hnil, List.map_nil]
  · rw [if_pos (by simp [htag])]
    have hall : (List.range' op.j1 (op.j2 - op.j1)).filter
        (fun jx => !coveredByEqual (get_opcodes a b) jx) =
        List.range' op.j1 (op.j2 - op.j1) := by
      rw [List.filter_eq_self]
      intro jx hjx
      obtain ⟨d, hd, rfl⟩ := List.mem_range'.mp hjx
      rw [hcov _ (by omega) (by omega)]
      simp [htag]
    rw [hall]
    by_cases hne : op.j1 < op.j2
    · have hlast : op.j2 - 1 ∈ List.range' op.j1 (op.j2 - op.j1) :=
        hmemspan _ (by omega) (by omega)
      have hmem : op.j2 - 1 ∈ List.range b.length := by
        rw [← opcodes_partition_polished a b]
        exact List.mem_flatMap_of_mem hop hlast
      have hlt : op.j2 - 1 < b.length := List.mem_range.mp hmem
      exact (map_getD_range' b (op.j2 - op.j1) op.j1 (by omega)).symm
    · have hz : op.j2 - op.j1 = 0 := by omega
      rw [hz]
      simp

theorem b2j_mem_facts {b : List String} {v : String} {j : Nat} (h : j ∈ b2j b v) :
    j < b.length ∧ b.getD j "" = v := by
  simp only [b2j] at h
  split at h
  · cases h
  · have := List.mem_filter.mp h
    refine ⟨List.mem_range.mp this.1, ?_⟩
    have hb := this.2
    simpa using hb

/-- If a value is not purged (some index of it is listed), every
occurrence of the value is listed. -/
theorem b2j_all_occ {b : List String} {v : String} {j j' : Nat}
    (h : j ∈ b2j b v) (h1 : j' < b.length) (h2 : b.getD j' "" = v) : j' ∈ b2j b v := by
  simp only [b2j] at h ⊢
  split at h
  · cases h
  · next hp =>
    rw [if_neg hp]
    exact List.mem_filter.mpr ⟨List.mem_range.mpr h1, by simpa using h2⟩

theorem b2j_sorted (b : List String) (v : String) : (b2j b v).Pairwise (· < ·) := by
  simp only [b2j]
  split
  · exact List.Pairwise.nil
  · exact (List.pairwise_lt_range b.length).filter _

theorem b2j_lt {b : List String} {v : String} {j : Nat} (h : j ∈ b2j b v) : j < b.length :=
  (b2j_mem_facts h).1

/-- An in-range index is either listed for its own value, or that value
was purged entirely. -/
theorem b2j_self_mem {b : List String} {i : Nat} (h : i < b.length) :
    i ∈ b2j b (b.getD i "") ∨ b2j b (b.getD i "") = [] := by
  by_cases hp : 200 ≤ b.length ∧ b.length / 100 + 1 <
      ((List.range b.length).filter (fun j => b.getD j "" == b.getD i "")).length
  · right
    simp only [b2j]
    rw [if_pos hp]
  · left
    simp only [b2j]
    rw [if_neg hp]
    exact List.mem_filter.mpr ⟨List.mem_range.mpr h, by simp⟩

theorem windowJs_eq_self {bhi : Nat} :
    ∀ (l : List Nat), (∀ j ∈ l, j < bhi) → windowJs 0 bhi l = l := by
  intro l
  induction l with
  | nil => intro _; rfl
  | cons j rest ih =>
    intro h
    rw [windowJs]
    rw [if_neg (by omega)]
    rw [if_neg (by have := h j (List.mem_cons_self j rest); omega)]
    rw [ih (fun x hx => h x (List.mem_cons_of_mem _ hx))]

/-- Length of the run of listed ("kept") indices ending at `j`, for the
self-comparison `SequenceMatcher(None, b, b)`: the longest diagonal
match ending at position `j` that the DP core can chain. -/
def dchain (b : List String) : Nat → Nat
  | 0 => if 0 ∈ b2j b (b.getD 0 "") then 1 else 0
  | j + 1 => if (j + 1) ∈ b2j b (b.getD (j + 1) "") then dchain b j + 1 else 0

theorem dchain_kept {b : List String} {j : Nat} (h : j ∈ b2j b (b.getD j "")) :
    dchain b j = (if j = 0 then 0 else dchain b (j - 1)) + 1 := by
  cases j with
  | zero =>
    rw [show dchain b 0 = if 0 ∈ b2j b (b.getD 0 "") then 1 else 0 from rfl, if_pos h]
    simp
  | succ j' =>
    rw [show dchain b (j' + 1) =
      if (j' + 1) ∈ b2j b (b.getD (j' + 1) "") then dchain b j' + 1 else 0 from rfl, if_pos h]
    simp

theorem dchain_not_kept {b : List String} {j : Nat} (h : ¬(j ∈ b2j b (b.getD j ""))) :
    dchain b j = 0 := by
  cases j with
  | zero =>
    rw [show dchain b 0 = if 0 ∈ b2j b (b.getD 0 "") then 1 else 0 from rfl, if_neg h]
  | succ j' =>
    rw [show dchain b (j' + 1) =
      if (j' + 1) ∈ b2j b (b.getD (j' + 1) "") then dchain b j' + 1 else 0 from rfl, if_neg h]

/-- Inner-loop invariants for the self-comparison: along the diagonal of
`SequenceMatcher(None, b, b)` the DP chains exactly `dchain`, every
off-diagonal chain value is dominated by an already-recorded diagonal
one, so the best match always stays on the diagonal. -/
theorem innerJs_self (b : List String) (i : Nat) (row : Nat → Nat)
    (hrow4 : ∀ j, row j ≤ dchain b j)
    (hrow5 : ∀ j, row j + 1 ≤ dchain b i)
    (hdiagk : (if i = 0 then 0 else row (i - 1)) + 1 = dchain b i) :
    ∀ (js : List Nat) (newRow : Nat → Nat) (best : Nat × Nat × Nat),
    (∀ j ∈ js, j ∈ b2j b (b.getD j "")) →
    js.Pairwise (· < ·) →
    (i ∈ js ∨ dchain b i ≤ best.2.2) →
    best.1 = best.2.1 →
    (best.2.2 = 0 → best = (0, 0, 0)) →
    (∀ m, m < i → dchain b m ≤ best.2.2) →
    (∀ j, newRow j ≤ dchain b j) →
    (∀ j, newRow j ≤ dchain b i) →
    (i ∈ js ∨ dchain b i ≤ newRow i) →
    (innerJs row i js newRow best).2.1 = (innerJs row i js newRow best).2.2.1 ∧
    ((innerJs row i js newRow best).2.2.2 = 0 → (innerJs row i js newRow best).2 = (0, 0, 0)) ∧
    (∀ m, m < i → dchain b m ≤ (innerJs row i js newRow best).2.2.2) ∧
    dchain b i ≤ (innerJs row i js newRow best).2.2.2 ∧
    (∀ j, (innerJs row i js newRow best).1 j ≤ dchain b j) ∧
    (∀ j, (innerJs row i js newRow best).1 j ≤ dchain b i) ∧
    dchain b i ≤ (innerJs row i js newRow best).1 i := by
  intro js
  induction js with
  | nil =>
    intro newRow best hocc hsort hdiag hb1 hb2 hb3 hn4 hn5 hn6
    refine ⟨hb1, hb2, hb3, ?_, hn4, hn5, ?_⟩
    · rcases hdiag with h | h
      · cases h
      · exact h
    · rcases hn6 with h | h
      · cases h
      · exact h
  | cons j rest ih =>
    intro newRow best hocc hsort hdiag hb1 hb2 hb3 hn4 hn5 hn6
    have hjkept : j ∈ b2j b (b.getD j "") := hocc j (List.mem_cons_self _ _)
    have hoccr : ∀ x ∈ rest, x ∈ b2j b (b.getD x "") :=
      fun x hx => hocc x (List.mem_cons_of_mem _ hx)
    have hsortr : rest.Pairwise (· < ·) := (List.pairwise_cons.mp hsort).2
    have hhead : ∀ x ∈ rest, j < x := (List.pairwise_cons.mp hsort).1
    simp only [innerJs]
    generalize hK : (if j = 0 then 0 else row (j - 1)) + 1 = K
    have hK1 : 1 ≤ K := by omega
    have hKdj : K ≤ dchain b j := by
      rw [← hK, dchain_kept hjkept]
      cases j with
      | zero => simp
      | succ j' =>
        have h4 := hrow4 j'
        have hz : (if j' + 1 = 0 then 0 else row (j' + 1 - 1)) = row j' := by
          rw [if_neg (Nat.succ_ne_zero j'), Nat.add_sub_cancel]
        rw [hz]
        have hz2 : (if j' + 1 = 0 then 0 else dchain b (j' + 1 - 1)) = dchain b j' := by
          rw [if_neg (Nat.succ_ne_zero j'), Nat.add_sub_cancel]
        rw [hz2]
        omega
    have hKdi : K ≤ dchain b i := by
      rw [← hK]
      cases j with
      | zero =>
        have hz : (if (0 : Nat) = 0 then 0 else row (0 - 1)) = 0 := rfl
        rw [hz]
        omega
      | succ j' =>
        have h5 := hrow5 j'
        have hz : (if j' + 1 = 0 then 0 else row (j' + 1 - 1)) = row j' := by
          rw [if_neg (Nat.succ_ne_zero j'), Nat.add_sub_cancel]
        rw [hz]
        omega
    by_cases hji : j = i
    · subst hji
      have hKeq : K = dchain b j := by rw [← hK]; exact hdiagk
      refine ih (rowUpdate newRow j K)
        (if best.2.2 < K then (j + 1 - K, j + 1 - K, K) else best)
        hoccr hsortr ?_ ?_ ?_ ?_ ?_ ?_ ?_
      · right
        split
        · show dchain b j ≤ K
          omega
        · next hup => omega
      · split
        · rfl
        · exact hb1
      · split
        · exact fun h0 => absurd (show K = 0 from h0) (by omega)
        · exact hb2
      · intro m hm
        split
        · next hup =>
          show dchain b m ≤ K
          have := hb3 m hm
          omega
        · exact hb3 m hm
      · intro j'
        unfold rowUpdate
        split
        · next he => subst he; omega
        · exact hn4 j'
      · intro j'
        unfold rowUpdate
        split
        · omega
        · exact hn5 j'
      · right
        unfold rowUpdate
        rw [if_pos rfl]
        omega
    · have hnoup : ¬(best.2.2 < K) := by
        rcases Nat.lt_trichotomy j i with hlt | heq | hgt
        · have := hb3 j hlt
          omega
        · exact absurd heq hji
        · have hnotin : dchain b i ≤ best.2.2 := by
            rcases hdiag with hmem | hd
            · rcases List.mem_cons.mp hmem with heq2 | hmemr
              · exact absurd heq2.symm hji
              · have := hhead i hmemr
                omega
            · exact hd
          omega
      rw [if_neg hnoup]
      refine ih (rowUpdate newRow j K) best hoccr hsortr ?_ hb1 hb2 hb3 ?_ ?_ ?_
      · rcases hdiag with hmem | hd
        · rcases List.mem_cons.mp hmem with heq2 | hmemr
          · exact absurd heq2.symm hji
          · exact Or.inl hmemr
        · exact Or.inr hd
      · intro j'
        unfold rowUpdate
        split
        · next he => subst he; omega
        · exact hn4 j'
      · intro j'
        unfold rowUpdate
        split
        · omega
        · exact hn5 j'
      · rcases hn6 with hmem | hd
        · rcases List.mem_cons.mp hmem with heq2 | hmemr
          · exact absurd heq2.symm hji
          · exact Or.inl hmemr
        · right
          unfold rowUpdate
          rw [if_neg (fun he => hji he.symm)]
          exact hd

/-- Outer-loop invariants for the self-comparison: the DP core of
`find_longest_match` on `(b, b)` over the full windows keeps its best
match on the diagonal. -/
theorem coreLoop_self (b : List String) :
    ∀ (steps i : Nat) (row : Nat → Nat) (best : Nat × Nat × Nat),
    i + steps ≤ b.length →
    (∀ j, row j ≤ dchain b j) →
    (∀ j, row j ≤ (if i = 0 then 0 else dchain b (i - 1))) →
    (i = 0 ∨ dchain b (i - 1) ≤ row (i - 1)) →
    best.1 = best.2.1 →
    (best.2.2 = 0 → best = (0, 0, 0)) →
    (∀ m, m < i → dchain b m ≤ best.2.2) →
    (coreLoop b b 0 b.length i steps row best).1 =
      (coreLoop b b 0 b.length i steps row best).2.1 ∧
    ((coreLoop b b 0 b.length i steps row best).2.2 = 0 →
      coreLoop b b 0 b.length i steps row best = (0, 0, 0)) := by
  suffices H : ∀ (steps i : Nat) (row : Nat → Nat) (best : Nat × Nat × Nat),
      i + steps ≤ b.length →
      (∀ j, row j ≤ dchain b j) →
      (∀ j, row j ≤ (if i = 0 then 0 else dchain b (i - 1))) →
      (i = 0 ∨ dchain b (i - 1) ≤ row (i - 1)) →
      best.1 = best.2.1 →
      (best.2.2 = 0 → best = (0, 0, 0)) →
      (∀ m, m < i → dchain b m ≤ best.2.2) →
      (coreLoop b b 0 b.length i steps row best).1 =
        (coreLoop b b 0 b.length i steps row best).2.1 ∧
      ((coreLoop b b 0 b.length i steps row best).2.2 = 0 →
        coreLoop b b 0 b.length i steps row best = (0, 0, 0)) ∧
      (∀ m, m < i + steps → dchain b m ≤ (coreLoop b b 0 b.length i steps row best).2.2) by
    intro steps i row best h1 h2 h3 h4 h5 h6 h7
    have := H steps i row best h1 h2 h3 h4 h5 h6 h7
    exact ⟨this.1, this.2.1⟩
  intro steps
  induction steps with
  | zero =>
    intro i row best _ _ _ _ hb1 hb2 hb3
    simp only [coreLoop]
    exact ⟨hb1, hb2, fun m hm => hb3 m (by omega)⟩
  | succ steps ih =>
    intro i row best hin h4 h5 h6 hb1 hb2 hb3
    simp only [coreLoop]
    have hi : i < b.length := by omega
    rcases b2j_self_mem hi with hkept | hempty
    · have hjs : windowJs 0 b.length (b2j b (b.getD i "")) = b2j b (b.getD i "") :=
        windowJs_eq_self _ (fun j hj => b2j_lt hj)
      rw [hjs]
      have hdci : ∀ j, row j + 1 ≤ dchain b i := by
        intro j
        rw [dchain_kept hkept]
        have := h5 j
        omega
      have hdiagk : (if i = 0 then 0 else row (i - 1)) + 1 = dchain b i := by
        rw [dchain_kept hkept]
        congr 1
        by_cases hi0 : i = 0
        · rw [if_pos hi0, if_pos hi0]
        · rw [if_neg hi0, if_neg hi0]
          have ha := h4 (i - 1)
          have hb := h6.resolve_left hi0
          omega
      have hocc : ∀ j ∈ b2j b (b.getD i ""), j ∈ b2j b (b.getD j "") := by
        intro j hj
        rw [(b2j_mem_facts hj).2]
        exact hj
      have hres := innerJs_self b i row h4 hdci hdiagk (b2j b (b.getD i ""))
        (fun _ => 0) best hocc (b2j_sorted b _) (Or.inl hkept) hb1 hb2 hb3
        (fun j => Nat.zero_le _) (fun j => Nat.zero_le _) (Or.inl hkept)
      have hrec := ih (i + 1)
        (innerJs row i (b2j b (b.getD i "")) (fun _ => 0) best).1
        (innerJs row i (b2j b (b.getD i "")) (fun _ => 0) best).2
        (by omega)
        hres.2.2.2.2.1
        (by
          intro j
          rw [if_neg (Nat.succ_ne_zero i), Nat.add_sub_cancel]
          exact hres.2.2.2.2.2.1 j)
        (by
          right
          rw [Nat.add_sub_cancel]
          exact hres.2.2.2.2.2.2)
        hres.1 hres.2.1
        (by
          intro m hm
          rcases Nat.lt_or_ge m i with hlt | hge
          · exact hres.2.2.1 m hlt
          · have : m = i := by omega
            subst this
            exact hres.2.2.2.1)
      have harith : i + 1 + steps = i + (steps + 1) := by omega
      rwa [harith] at hrec
    · rw [hempty]
      simp only [windowJs, innerJs]
      have hd0 : dchain b i = 0 := by
        refine dchain_not_kept ?_
        intro hmem
        rw [hempty] at hmem
        cases hmem
      have hrec := ih (i + 1) (fun _ => 0) best (by omega)
        (fun j => Nat.zero_le _)
        (fun j => Nat.zero_le _)
        (by
          right
          rw [Nat.add_sub_cancel, hd0])
        hb1 hb2
        (by
          intro m hm
          rcases Nat.lt_or_ge m i with hlt | hge
          · exact hb3 m hlt
          · have : m = i := by omega
            subst this
            rw [hd0]
            exact Nat.zero_le _)
      have harith : i + 1 + steps = i + (steps + 1) := by omega
      rwa [harith] at hrec

theorem extendBack_diag (b : List String) :
    ∀ t s, extendBack b b 0 0 t t s = (0, 0, s + t) := by
  intro t
  induction t with
  | zero =>
    intro s
    rw [extendBack]
    split
    · next hc => exact absurd hc.1 (lt_irrefl 0)
    · rfl
  | succ t ih =>
    intro s
    rw [extendBack]
    split
    · next hc =>
      rw [Nat.add_sub_cancel, ih (s + 1)]
      have : s + 1 + t = s + (t + 1) := by omega
      rw [this]
    · next hc =>
      exact absurd ⟨Nat.succ_pos t, Nat.succ_pos t, rfl⟩ hc

theorem extendFwd_diag (b : List String) (n : Nat) :
    ∀ s, s ≤ n → extendFwd b b n n 0 0 s = (0, 0, n) := by
  suffices H : ∀ fuel s, n - s ≤ fuel → s ≤ n → extendFwd b b n n 0 0 s = (0, 0, n) by
    intro s hs
    exact H (n - s) s le_rfl hs
  intro fuel
  induction fuel with
  | zero =>
    intro s h1 h2
    rw [extendFwd]
    split
    · next hc => omega
    · have : s = n := by omega
      rw [this]
  | succ fuel ih =>
    intro s h1 h2
    rw [extendFwd]
    split
    · next hc => exact ih (s + 1) (by omega) (by omega)
    · next hc =>
      have hs : s = n := by
        by_contra hne
        exact hc ⟨by omega, by omega, rfl⟩
      rw [hs]

theorem flm_degenerate (a b : List String) (w x : Nat) :
    findLongestMatch a b w w x x = (w, x, 0) := by
  have hback : extendBack a b w x w x 0 = (w, x, 0) := by
    rw [extendBack]
    split
    · next hc => exact absurd hc.1 (lt_irrefl w)
    · rfl
  have hfwd : extendFwd a b w x w x 0 = (w, x, 0) := by
    rw [extendFwd]
    split
    · next hc =>
      exact absurd hc.1 (by omega)
    · rfl
  simp only [findLongestMatch, Nat.sub_self, coreLoop, hback, hfwd]

/-- On identical sequences and full windows, `find_longest_match`
returns the whole range: the DP core lands on the diagonal and the two
extension loops then stretch the match to the full length. -/
theorem flm_self (b : List String) :
    findLongestMatch b b 0 b.length 0 b.length = (0, 0, b.length) := by
  have hself := coreLoop_self b b.length 0 (fun _ => 0) (0, 0, 0)
    (by omega)
    (fun j => Nat.zero_le _)
    (fun j => Nat.zero_le _)
    (Or.inl rfl)
    rfl
    (fun _ => rfl)
    (fun m hm => absurd hm (Nat.not_lt_zero m))
  have hzero : RowInv 0 0 b.length 0 (fun _ => 0) := fun j hj => absurd rfl hj
  have hbest0 : BestInv 0 0 b.length 0 (0, 0, 0) :=
    ⟨fun _ => rfl, fun h0 => absurd rfl h0⟩
  have hbinv := coreLoop_inv (a := b) (b := b) b.length 0 (fun _ => 0) (0, 0, 0)
    le_rfl hzero hbest0
  simp only [findLongestMatch, Nat.sub_zero]
  revert hself hbinv
  generalize hcg : coreLoop b b 0 b.length 0 b.length (fun _ => 0) (0, 0, 0) = core
  intro hself hbinv
  obtain ⟨c1, c2, cs⟩ := core
  have hdiag : c1 = c2 := hself.1
  subst hdiag
  have hback : (extendBack b b 0 0 ((c1, c1, cs) : Nat × Nat × Nat).1
      ((c1, c1, cs) : Nat × Nat × Nat).2.1 ((c1, c1, cs) : Nat × Nat × Nat).2.2) =
      (0, 0, cs + c1) := extendBack_diag b c1 cs
  rw [hback]
  show extendFwd b b b.length b.length 0 0 (cs + c1) = (0, 0, b.length)
  by_cases hcs : cs = 0
  · subst hcs
    have hcv : ((c1, c1, 0) : Nat × Nat × Nat) = (0, 0, 0) := hself.2 rfl
    have h1 : c1 = 0 := congrArg Prod.fst hcv
    subst h1
    exact extendFwd_diag b b.length 0 (Nat.zero_le _)
  · have hb := hbinv.2 hcs
    have hb2 : c1 + cs ≤ 0 + b.length := hb.2.1
    exact extendFwd_diag b b.length (cs + c1) (by omega)

theorem matchingRec_degenerate (a b : List String) (w x : Nat) :
    matchingRec a b w w x x = [] := by
  rw [matchingRec]
  rw [dif_pos (show (findLongestMatch a b w w x x).2.2 = 0 by rw [flm_degenerate])]

theorem matchingRec_self (b : List String) (hn : b.length ≠ 0) :
    matchingRec b b 0 b.length 0 b.length = [(0, 0, b.length)] := by
  rw [matchingRec]
  rw [dif_neg (show ¬((findLongestMatch b b 0 b.length 0 b.length).2.2 = 0) by
    rw [flm_self]; exact hn)]
  rw [flm_self]
  show matchingRec b b 0 0 0 0 ++ ((0 : Nat), (0 : Nat), b.length) ::
    matchingRec b b (0 + b.length) b.length (0 + b.length) b.length = [(0, 0, b.length)]
  rw [matchingRec_degenerate, Nat.zero_add, matchingRec_degenerate]
  simp

theorem gmb_self (b : List String) :
    get_matching_blocks b b =
      (if b.length = 0 then [] else [((0 : Nat), (0 : Nat), b.length)]) ++
        [(b.length, b.length, 0)] := by
  rw [get_matching_blocks]
  by_cases hn : b.length = 0
  · rw [if_pos hn]
    congr 1
    rw [hn, matchingRec_degenerate, mergeLoop]
    rw [if_neg (show ¬((0 : Nat) ≠ 0) from by omega)]
  · rw [if_neg hn]
    congr 1
    rw [matchingRec_self b hn, mergeLoop]
    rw [if_pos (show 0 + 0 = 0 ∧ 0 + 0 = 0 from ⟨rfl, rfl⟩), mergeLoop]
    rw [if_pos (show 0 + b.length ≠ 0 from by omega)]
    simp

/-- On identical sequences the change detector returns the empty list. -/
theorem changed_self (b : List String) : changed_sentences b b = [] := by
  rw [changed_sentences, get_opcodes, gmb_self]
  by_cases hn : b.length = 0
  · rw [if_pos hn, List.nil_append, hn]
    rw [opcodeLoop]
    simp only [lt_self_iff_false, false_and, if_false, and_false]
    rw [opcodeLoop]
    simp
  · rw [if_neg hn, List.cons_append, List.nil_append]
    rw [opcodeLoop]
    simp only [lt_self_iff_false, false_and, if_false, Nat.zero_add]
    rw [opcodeLoop]
    simp only [Nat.add_zero, lt_self_iff_false, false_and, if_false, and_false]
    rw [opcodeLoop]
    simp [hn]

/-- Claim C1: for every pair of sentence sequences, the change detector's
output is exactly the sub-sequence of polished sentences at positions not
covered by any `"equal"` opcode span (replace/insert/delete spans all
count as changed), in polished-sequence order with duplicates preserved
positionally; and two element-for-element identical sequences yield an
empty change set. -/
theorem changed_sentences_spec (orig polished : List String) :
    changed_sentences orig polished =
      ((List.range polished.length).filter
        (fun jx => !coveredByEqual (get_opcodes orig polished) jx)).map
        (fun jx => polished.getD jx "") ∧
    (orig = polished → changed_sentences orig polished = []) :=
  ⟨changed_eq_filter orig polished, fun h => by subst h; exact changed_self orig⟩

/-- Witness for C1 at a concrete identical pair. -/
theorem changed_sentences_spec_witness :
    changed_sentences ["One sentence.", "Two."] ["One sentence.", "Two."] = [] :=
  (changed_sentences_spec ["One sentence.", "Two."] ["One sentence.", "Two."]).2 rfl

theorem dictInsert_values {d : List (String × String)} {k v t c : String}
    (h : (t, c) ∈ dictInsert d k v) : (t, c) ∈ d ∨ c = v := by
  induction d with
  | nil =>
    simp only [dictInsert, List.mem_singleton] at h
    right
    exact (Prod.mk.injEq _ _ _ _ ▸ h).2
  | cons p rest ih =>
    obtain ⟨k', v'⟩ := p
    simp only [dictInsert] at h
    split at h
    · rcases List.mem_cons.mp h with he | hm
      · right
        exact (Prod.mk.injEq _ _ _ _ ▸ he).2
      · left
        exact List.mem_cons_of_mem _ hm
    · rcases List.mem_cons.mp h with he | hm
      · left
        exact he ▸ List.mem_cons_self _ _
      · rcases ih hm with h1 | h2
        · exact Or.inl (List.mem_cons_of_mem _ h1)
        · exact Or.inr h2

theorem respCategory_mem (raw : String) : respCategory raw ∈ allowedCategories := by
  rw [respCategory]
  split
  · assumption
  · simp [allowedCategories]

theorem classifyLoop_values (llm : Nat → String) :
    ∀ (cs : List String) (n : Nat) (d : List (String × String)),
    (∀ t c, (t, c) ∈ d → c ∈ allowedCategories) →
    ∀ t c, (t, c) ∈ (classifyLoop llm cs n d).2 → c ∈ allowedCategories := by
  intro cs
  induction cs with
  | nil => intro n d hd t c hm; exact hd t c hm
  | cons sent rest ih =>
    intro n d hd t c hm
    refine ih (n + 1) _ ?_ t c hm
    intro t' c' hm'
    rcases dictInsert_values hm' with h1 | h2
    · exact hd t' c' h1
    · exact h2 ▸ respCategory_mem _

/-- Claim C2: for every raw LLM response, the classifier's category is
one of the five allowed values; any response whose stripped, lower-cased
text is outside the enumeration falls back to `"other"`; and the
sentence-to-category mapping built by the classification loop only ever
stores allowed categories. -/
theorem classifier_spec (raw : String) :
    respCategory raw ∈ allowedCategories ∧
    (pyLower (pyStrip raw) ∉ allowedCategories → respCategory raw = "other") ∧
    (∀ (llm : Nat → String) (cs : List String) (n : Nat) (t c : String),
      (t, c) ∈ (classifyLoop llm cs n []).2 → c ∈ allowedCategories) := by
  refine ⟨respCategory_mem raw, ?_, ?_⟩
  · intro h
    rw [respCategory, if_neg h]
  · intro llm cs n t c hm
    exact classifyLoop_values llm cs n [] (fun t' c' h' => by cases h') t c hm

/-- Witness for C2 at the spec's malformed response `"Grammar!!"`. -/
theorem classifier_spec_witness :
    respCategory "Grammar!!" ∈ allowedCategories ∧ respCategory "Grammar!!" = "other" :=
  ⟨(classifier_spec "Grammar!!").1, (classifier_spec "Grammar!!").2.1 (by decide)⟩

theorem dictGet_mem {d : List (String × String)} {k v : String}
    (h : dictGet d k = some v) : (k, v) ∈ d := by
  induction d with
  | nil => cases h
  | cons p rest ih =>
    obtain ⟨k', v'⟩ := p
    simp only [dictGet] at h
    split at h
    · next he =>
      obtain rfl := he
      obtain rfl := Option.some.injEq _ _ ▸ h
      exact List.mem_cons_self _ _
    · exact List.mem_cons_of_mem _ (ih h)

theorem allowed_ne_empty {c : String} (h : c ∈ allowedCategories) : c ≠ "" := by
  simp only [allowedCategories, List.mem_cons, List.mem_singleton] at h
  rcases h with rfl | rfl | rfl | rfl | rfl | h
  · decide
  · decide
  · decide
  · decide
  · decide
  · cases h

/-- Claim C3: for every polished sentence sequence and sentence-to-
category mapping (categories drawn from the five-value enumeration), the
highlighter wraps exactly the sentences whose trimmed text is a key of
the mapping in a span styled with that category's fixed color, leaves
every other sentence unwrapped, joins with single spaces, and preserves
the sentence count. -/
theorem highlighter_spec (ps : List String) (cats : List (String × String))
    (hvals : ∀ p ∈ cats, p.2 ∈ allowedCategories) :
    (highlightList ps cats).length = ps.length ∧
    (∀ i, i < ps.length → ∀ c, dictGet cats (pyStrip (ps.getD i "")) = some c →
      (highlightList ps cats).getD i "" =
        wrapSpan ((dictGet highlights c).getD "") (ps.getD i "")) ∧
    (∀ i, i < ps.length → dictGet cats (pyStrip (ps.getD i "")) = none →
      (highlightList ps cats).getD i "" = ps.getD i "") ∧
    highlight_sentences ps cats = spaceJoin (highlightList ps cats) ∧
    dictGet highlights "grammar" = some "background-color:#ffcccc;" ∧
    dictGet highlights "spelling" = some "background-color:#cce5ff;" ∧
    dictGet highlights "tone" = some "background-color:#fff3cd;" ∧
    dictGet highlights "formatting" = some "background-color:#d5f5e3;" ∧
    dictGet highlights "other" = some "background-color:#e8d4f8;" := by
  have hget : ∀ i, i < ps.length →
      (highlightList ps cats).getD i "" = highlightOne cats (ps.getD i "") := by
    intro i hi
    rw [highlightList]
    rw [List.getD_eq_getElem?_getD, List.getD_eq_getElem?_getD, List.getElem?_map]
    rw [List.getElem?_eq_getElem hi]
    rfl
  refine ⟨by simp [highlightList], ?_, ?_, rfl, rfl, rfl, rfl, rfl, rfl⟩
  · intro i hi c hc
    rw [hget i hi, highlightOne, hc]
    have hcne : c ≠ "" := allowed_ne_empty (hvals _ (dictGet_mem hc))
    show (if c = "" then ps.getD i ""
      else wrapSpan ((dictGet highlights c).getD "") (ps.getD i "")) =
      wrapSpan ((dictGet highlights c).getD "") (ps.getD i "")
    rw [if_neg hcne]
  · intro i hi hc
    rw [hget i hi, highlightOne, hc]

/-- Witness for C3 at a concrete sequence and mapping. -/
theorem highlighter_spec_witness :
    (highlightList ["It have errors.", "Fine."] [("It have errors.", "grammar")]).length = 2 ∧
    (highlightList ["It have errors.", "Fine."]
        [("It have errors.", "grammar")]).getD 0 "" =
      wrapSpan "background-color:#ffcccc;" "It have errors." ∧
    (highlightList ["It have errors.", "Fine."]
        [("It have errors.", "grammar")]).getD 1 "" = "Fine." := by
  have h := highlighter_spec ["It have errors.", "Fine."]
    [("It have errors.", "grammar")] (by decide)
  refine ⟨h.1, ?_, ?_⟩
  · have := h.2.1 0 (by decide) "grammar" (by decide)
    rw [this]
    rfl
  · have := h.2.2.1 1 (by decide) (by decide)
    rw [this]
    rfl

/-- Claim C7: on submit with empty (or whitespace-only, i.e. stripped
empty) user input, a warning is shown, no LLM call is issued, and no
polished-output panel is rendered. -/
theorem empty_input_spec (llm : Nat → String) (user_input : String)
    (h : pyStrip user_input = "") :
    (runPolishAction llm user_input).warned = true ∧
    (runPolishAction llm user_input).calls = 0 ∧
    (runPolishAction llm user_input).panel = none := by
  rw [runPolishAction, if_pos h]
  exact ⟨rfl, rfl, rfl⟩

/-- Witness for C7 at a whitespace-only draft. -/
theorem empty_input_spec_witness :
    (runPolishAction (fun _ => "ignored") "   ").warned = true ∧
    (runPolishAction (fun _ => "ignored") "   ").calls = 0 ∧
    (runPolishAction (fun _ => "ignored") "   ").panel = none :=
  empty_input_spec (fun _ => "ignored") "   " (by decide)

/-- Claim C8: if the API-key credential is absent from the environment at
startup, the program halts with a user-visible error and never reaches
the model-configuration / UI stage. -/
theorem startup_missing_key :
    startup none = StartupResult.halted true ∧
    ∀ m, startup none ≠ StartupResult.running m :=
  ⟨rfl, fun _ h => StartupResult.noConfusion h⟩

/-- A sentence-break pattern: some `.`, `!` or `?` immediately followed
by a whitespace character. -/
def hasBreak : List Char → Bool
  | [] => false
  | [_] => false
  | c :: d :: rest => (isPunct c && isSpace d) || hasBreak (d :: rest)

theorem punct_not_space {c : Char} (h : isPunct c = true) : isSpace c = false := by
  simp only [isPunct, Bool.or_eq_true, beq_iff_eq] at h
  rcases h with (h | h) | h <;> subst h <;> decide

theorem splitGo_ne_nil : ∀ (l : List Char), splitGo l ≠ [] := by
  intro l
  induction l using splitGo.induct with
  | case1 => simp [splitGo]
  | case2 c => simp [splitGo]
  | case3 c d rest hcond ih =>
    rw [splitGo, if_pos hcond]
    exact List.cons_ne_nil _ _
  | case4 c d rest hcond hnil ih =>
    exact absurd hnil ih
  | case5 c d rest hcond s ss hsome ih =>
    rw [splitGo, if_neg hcond, hsome]
    exact List.cons_ne_nil _ _

theorem splitGo_head : ∀ (c : Char) (rest : List Char),
    ∃ s ss, splitGo (c :: rest) = (c :: s) :: ss := by
  intro c rest
  cases rest with
  | nil => exact ⟨[], [], by rw [splitGo]⟩
  | cons d rest' =>
    by_cases hcond : (isPunct c && isSpace d) = true
    · refine ⟨[], splitGo (List.dropWhile isSpace (d :: rest')), ?_⟩
      rw [splitGo, if_pos hcond]
    · rcases hs : splitGo (d :: rest') with _ | ⟨s, ss⟩
      · exact absurd hs (splitGo_ne_nil _)
      · refine ⟨s, ss, ?_⟩
        rw [splitGo, if_neg hcond, hs]

theorem splitGo_noBreak : ∀ (l : List Char), hasBreak l = false → splitGo l = [l] := by
  intro l
  induction l using splitGo.induct with
  | case1 => intro _; rw [splitGo]
  | case2 c => intro _; rw [splitGo]
  | case3 c d rest hcond ih =>
    intro hb
    rw [hasBreak] at hb
    simp only [Bool.or_eq_false_iff] at hb
    rw [hb.1] at hcond
    cases hcond
  | case4 c d rest hcond hnil ih =>
    exact absurd hnil (splitGo_ne_nil _)
  | case5 c d rest hcond s ss hsome ih =>
    intro hb
    rw [hasBreak] at hb
    simp only [Bool.or_eq_false_iff] at hb
    have := ih hb.2
    rw [this] at hsome
    obtain ⟨rfl, rfl⟩ : s = d :: rest ∧ ss = [] := by
      have h1 := (List.cons.injEq _ _ _ _).mp hsome
      exact ⟨h1.1.symm, h1.2.symm⟩
    rw [splitGo, if_neg hcond, this]

theorem getLast?_cons_ne_nil {a : α} {l : List α} (h : l ≠ []) :
    (a :: l).getLast? = l.getLast? := by
  cases l with
  | nil => exact absurd rfl h
  | cons b l' => exact List.getLast?_cons_cons

theorem suffix_getLast? {l₁ l₂ : List α} (h : l₁ <:+ l₂) (hne : l₁ ≠ []) :
    l₂.getLast? = l₁.getLast? := by
  obtain ⟨pre, rfl⟩ := h
  rw [List.getLast?_append]
  rcases hl : l₁.getLast? with _ | x
  · exact absurd (List.getLast?_eq_none_iff.mp hl) hne
  · rfl

/-- No segment produced by the split contains an internal break. -/
theorem splitGo_noInternalBreak :
    ∀ (l : List Char), ∀ s ∈ splitGo l, hasBreak s = false := by
  intro l
  induction l using splitGo.induct with
  | case1 =>
    intro s hs
    rw [splitGo] at hs
    simp only [List.mem_singleton] at hs
    subst hs
    rfl
  | case2 c =>
    intro s hs
    rw [splitGo] at hs
    simp only [List.mem_singleton] at hs
    subst hs
    rfl
  | case3 c d rest hcond ih =>
    intro s hs
    rw [splitGo, if_pos hcond] at hs
    rcases List.mem_cons.mp hs with rfl | hs'
    · rfl
    · exact ih s hs'
  | case4 c d rest hcond hnil ih =>
    exact absurd hnil (splitGo_ne_nil _)
  | case5 c d rest hcond s0 ss hsome ih =>
    intro s hs
    obtain ⟨s', ss', hshape⟩ := splitGo_head d rest
    rw [hshape] at hsome
    obtain ⟨h1, h2⟩ := (List.cons.injEq _ _ _ _).mp hsome
    subst h1
    subst h2
    have heq : splitGo (c :: d :: rest) = (c :: d :: s') :: ss' := by
      rw [splitGo, if_neg hcond, hshape]
    rw [heq] at hs
    rcases List.mem_cons.mp hs with rfl | hs'
    · show ((isPunct c && isSpace d) || hasBreak (d :: s')) = false
      rw [Bool.or_eq_false_iff]
      refine ⟨by simpa using hcond, ?_⟩
      exact ih (d :: s') (by rw [hshape]; exact List.mem_cons_self _ _)
    · exact ih s (by rw [hshape]; exact List.mem_cons_of_mem _ hs')

/-- Every segment before the last one ends with `.`, `!` or `?`. -/
theorem splitGo_dropLast_punct :
    ∀ (l : List Char), ∀ s ∈ (splitGo l).dropLast,
    ∃ cc, s.getLast? = some cc ∧ isPunct cc = true := by
  intro l
  induction l using splitGo.induct with
  | case1 =>
    intro s hs
    rw [splitGo] at hs
    cases hs
  | case2 c =>
    intro s hs
    rw [splitGo] at hs
    cases hs
  | case3 c d rest hcond ih =>
    intro s hs
    rw [splitGo, if_pos hcond] at hs
    rcases hX : splitGo (List.dropWhile isSpace (d :: rest)) with _ | ⟨x, xs⟩
    · exact absurd hX (splitGo_ne_nil _)
    · rw [hX, List.dropLast_cons₂] at hs
      rcases List.mem_cons.mp hs with rfl | hs'
      · refine ⟨c, rfl, ?_⟩
        have hc2 := hcond
        simp only [Bool.and_eq_true] at hc2
        exact hc2.1
      · refine ih s ?_
        rw [hX]
        exact hs'
  | case4 c d rest hcond hnil ih =>
    exact absurd hnil (splitGo_ne_nil _)
  | case5 c d rest hcond s0 ss hsome ih =>
    intro s hs
    obtain ⟨s', ss', hshape⟩ := splitGo_head d rest
    rw [hshape] at hsome
    obtain ⟨h1, h2⟩ := (List.cons.injEq _ _ _ _).mp hsome
    subst h1
    subst h2
    have heq : splitGo (c :: d :: rest) = (c :: d :: s') :: ss' := by
      rw [splitGo, if_neg hcond, hshape]
    rw [heq] at hs
    cases ss' with
    | nil =>
      rw [List.dropLast_single] at hs
      cases hs
    | cons x xs =>
      rw [List.dropLast_cons₂] at hs
      rcases List.mem_cons.mp hs with rfl | hs'
      · have hmem : (d :: s') ∈ (splitGo (d :: rest)).dropLast := by
          rw [hshape, List.dropLast_cons₂]
          exact List.mem_cons_self _ _
        obtain ⟨cc, hlast, hpunct⟩ := ih _ hmem
        refine ⟨cc, ?_, hpunct⟩
        rw [getLast?_cons_ne_nil (List.cons_ne_nil _ _), hlast]
      · refine ih s ?_
        rw [hshape, List.dropLast_cons₂]
        exact List.mem_cons_of_mem _ hs'

/-- Every segment after the first starts with a non-whitespace character
(it begins right after a maximal whitespace run was consumed). -/
theorem splitGo_tail_heads :
    ∀ (l : List Char), ∀ s ∈ (splitGo l).tail,
    ∀ cc, s.head? = some cc → isSpace cc = false := by
  intro l
  induction l using splitGo.induct with
  | case1 =>
    intro s hs
    rw [splitGo] at hs
    cases hs
  | case2 c =>
    intro s hs
    rw [splitGo] at hs
    cases hs
  | case3 c d rest hcond ih =>
    intro s hs cc hcc
    rw [splitGo, if_pos hcond, List.tail_cons] at hs
    rcases hl' : List.dropWhile isSpace (d :: rest) with _ | ⟨e, l''⟩
    · rw [hl'] at hs
      rw [splitGo] at hs
      simp only [List.mem_singleton] at hs
      subst hs
      cases hcc
    · obtain ⟨s', ss', hshape⟩ := splitGo_head e l''
      rw [hl', hshape] at hs
      rcases List.mem_cons.mp hs with rfl | hs'
      · rw [List.head?_cons] at hcc
        obtain rfl := Option.some.injEq _ _ ▸ hcc
        have := List.head?_dropWhile_not isSpace (d :: rest)
        rw [hl'] at this
        simpa using this
      · refine ih s ?_ cc hcc
        rw [hl', hshape, List.tail_cons]
        exact hs'
  | case4 c d rest hcond hnil ih =>
    exact absurd hnil (splitGo_ne_nil _)
  | case5 c d rest hcond s0 ss hsome ih =>
    intro s hs cc hcc
    obtain ⟨s', ss', hshape⟩ := splitGo_head d rest
    rw [hshape] at hsome
    obtain ⟨h1, h2⟩ := (List.cons.injEq _ _ _ _).mp hsome
    subst h1
    subst h2
    have heq : splitGo (c :: d :: rest) = (c :: d :: s') :: ss' := by
      rw [splitGo, if_neg hcond, hshape]
    rw [heq, List.tail_cons] at hs
    refine ih s ?_ cc hcc
    rw [hshape, List.tail_cons]
    exact hs

/-- The last segment ends where the input ends (provided the input does
not end in whitespace). -/
theorem splitGo_last :
    ∀ (l : List Char), (∀ cc, l.getLast? = some cc → isSpace cc = false) →
    ∃ ls, (splitGo l).getLast? = some ls ∧ ls.getLast? = l.getLast? := by
  intro l
  induction l using splitGo.induct with
  | case1 =>
    intro _
    exact ⟨[], by rw [splitGo]; rfl, rfl⟩
  | case2 c =>
    intro _
    exact ⟨[c], by rw [splitGo]; rfl, rfl⟩
  | case3 c d rest hcond ih =>
    intro htrail
    have htrail' : ∀ cc, (d :: rest).getLast? = some cc → isSpace cc = false := by
      intro cc hcc
      refine htrail cc ?_
      rw [List.getLast?_cons_cons]
      exact hcc
    have hne : List.dropWhile isSpace (d :: rest) ≠ [] := by
      intro hnil
      have hall := List.dropWhile_eq_nil_iff.mp hnil
      obtain ⟨x, hx⟩ := Option.isSome_iff_exists.mp
        (List.getLast?_isSome.mpr (List.cons_ne_nil d rest))
      have hxmem : x ∈ d :: rest := by
        obtain ⟨h', he⟩ := List.mem_getLast?_eq_getLast (l := d :: rest) hx
        exact he ▸ List.getLast_mem h'
      have := hall x hxmem
      have := htrail' x hx
      simp_all
    have hsuffix : (List.dropWhile isSpace (d :: rest)).getLast? = (d :: rest).getLast? :=
      (suffix_getLast? (List.dropWhile_suffix isSpace) hne).symm
    have htraild : ∀ cc, (List.dropWhile isSpace (d :: rest)).getLast? = some cc →
        isSpace cc = false := by
      intro cc hcc
      rw [hsuffix] at hcc
      exact htrail' cc hcc
    obtain ⟨ls, hls1, hls2⟩ := ih htraild
    refine ⟨ls, ?_, ?_⟩
    · rw [splitGo, if_pos hcond]
      rw [getLast?_cons_ne_nil (splitGo_ne_nil _), hls1]
    · rw [hls2, hsuffix, List.getLast?_cons_cons]
  | case4 c d rest hcond hnil ih =>
    exact absurd hnil (splitGo_ne_nil _)
  | case5 c d rest hcond s0 ss hsome ih =>
    intro htrail
    obtain ⟨s', ss', hshape⟩ := splitGo_head d rest
    rw [hshape] at hsome
    obtain ⟨h1, h2⟩ := (List.cons.injEq _ _ _ _).mp hsome
    subst h1
    subst h2
    have heq : splitGo (c :: d :: rest) = (c :: d :: s') :: ss' := by
      rw [splitGo, if_neg hcond, hshape]
    have htrail' : ∀ cc, (d :: rest).getLast? = some cc → isSpace cc = false := by
      intro cc hcc
      refine htrail cc ?_
      rw [List.getLast?_cons_cons]
      exact hcc
    obtain ⟨ls, hls1, hls2⟩ := ih htrail'
    rw [hshape] at hls1
    cases ss' with
    | nil =>
      simp only [List.getLast?_singleton, Option.some.injEq] at hls1
      refine ⟨c :: d :: s', by rw [heq]; rfl, ?_⟩
      rw [List.getLast?_cons_cons, hls1, hls2, List.getLast?_cons_cons]
    | cons x xs =>
      refine ⟨ls, ?_, ?_⟩
      · rw [heq]
        rw [getLast?_cons_ne_nil (List.cons_ne_nil _ _)]
        rw [getLast?_cons_ne_nil (List.cons_ne_nil _ _)] at hls1
        exact hls1
      · rw [hls2, List.getLast?_cons_cons]

theorem dropWhile_eq_self_of_head {p : α → Bool} {l : List α}
    (h : ∀ c, l.head? = some c → p c = false) : l.dropWhile p = l := by
  cases l with
  | nil => rfl
  | cons c rest =>
    rw [List.dropWhile_cons_of_neg]
    have := h c rfl
    simp [this]

theorem pyStripL_eq_self {s : List Char}
    (h1 : ∀ c, s.head? = some c → isSpace c = false)
    (h2 : ∀ c, s.getLast? = some c → isSpace c = false) : pyStripL s = s := by
  rw [pyStripL]
  rw [dropWhile_eq_self_of_head h1]
  rw [dropWhile_eq_self_of_head (by
    intro c hc
    rw [List.head?_reverse] at hc
    exact h2 c hc)]
  exact List.reverse_reverse s

theorem pyStripL_last (l : List Char) :
    ∀ c, (pyStripL l).getLast? = some c → isSpace c = false := by
  intro c hc
  rw [pyStripL, List.getLast?_reverse] at hc
  have := List.head?_dropWhile_not isSpace ((l.dropWhile isSpace).reverse)
  rw [hc] at this
  exact this

theorem pyStripL_head (l : List Char) :
    ∀ c, (pyStripL l).head? = some c → isSpace c = false := by
  intro c hc
  rw [pyStripL, List.head?_reverse] at hc
  have hne : List.dropWhile isSpace ((l.dropWhile isSpace).reverse) ≠ [] := by
    intro h0
    rw [h0] at hc
    cases hc
  rw [← suffix_getLast? (List.dropWhile_suffix isSpace) hne, List.getLast?_reverse] at hc
  have := List.head?_dropWhile_not isSpace l
  rw [hc] at this
  exact this

/-- Each segment of the split of a stripped text is itself strip-clean:
no leading or trailing whitespace. -/
theorem splitGo_clean (u : List Char)
    (hhead : ∀ c, u.head? = some c → isSpace c = false)
    (htrail : ∀ c, u.getLast? = some c → isSpace c = false) :
    ∀ s ∈ splitGo u, pyStripL s = s := by
  intro s hs
  refine pyStripL_eq_self ?_ ?_
  · intro c hc
    cases u with
    | nil =>
      rw [splitGo] at hs
      simp only [List.mem_singleton] at hs
      subst hs
      cases hc
    | cons x r =>
      obtain ⟨s', ss', hshape⟩ := splitGo_head x r
      rw [hshape] at hs
      rcases List.mem_cons.mp hs with rfl | hs'
      · rw [List.head?_cons] at hc
        obtain rfl : x = c := Option.some.injEq _ _ ▸ hc
        exact hhead _ rfl
      · exact splitGo_tail_heads (x :: r) s (by rw [hshape]; exact hs') c hc
  · intro c hc
    obtain ⟨ls, hls1, hls2⟩ := splitGo_last u htrail
    have hgl : (splitGo u).getLast (splitGo_ne_nil u) = ls := by
      have := List.getLast?_eq_getLast (splitGo u) (splitGo_ne_nil u)
      rw [this] at hls1
      exact Option.some.injEq _ _ ▸ hls1
    have hX := List.dropLast_concat_getLast (splitGo_ne_nil u)
    rw [← hX] at hs
    rcases List.mem_append.mp hs with hd | hl
    · obtain ⟨cc, hlast, hpunct⟩ := splitGo_dropLast_punct u s hd
      rw [hlast] at hc
      obtain rfl : cc = c := Option.some.injEq _ _ ▸ hc
      exact punct_not_space hpunct
    · simp only [List.mem_singleton] at hl
      subst hl
      rw [hgl, hls2] at hc
      exact htrail c hc

/-- Claim C4: `split_sentences` breaks the (stripped) text exactly after
any `.`, `!` or `?` followed by whitespace: empty input yields the single
empty segment; text with no such break point yields the one-element
sequence holding the stripped text; every segment is free of leading and
trailing whitespace; every non-final segment ends in `.`, `!` or `?`; no
segment contains an internal break point; and the result is never empty. -/
theorem split_sentences_spec (text : String) :
    (text = "" → split_sentences text = [""]) ∧
    (hasBreak (pyStripL text.data) = false → split_sentences text = [pyStrip text]) ∧
    (∀ s ∈ split_sentences text, pyStrip s = s) ∧
    (∀ s ∈ (split_sentences text).dropLast,
      ∃ cc, s.data.getLast? = some cc ∧ isPunct cc = true) ∧
    (∀ s ∈ split_sentences text, hasBreak s.data = false) ∧
    split_sentences text ≠ [] := by
  refine ⟨?_, ?_, ?_, ?_, ?_, ?_⟩
  · intro h
    subst h
    rw [split_sentences]
    have hz : pyStripL (String.data "") = [] := rfl
    rw [hz, splitGo]
    rfl
  · intro h
    rw [split_sentences, splitGo_noBreak _ h]
    rfl
  · intro s hs
    rw [split_sentences] at hs
    obtain ⟨ld, hld, rfl⟩ := List.mem_map.mp hs
    show pyStrip (⟨ld⟩ : String) = (⟨ld⟩ : String)
    have : pyStrip (⟨ld⟩ : String) = ⟨pyStripL ld⟩ := rfl
    rw [this]
    have hclean := splitGo_clean (pyStripL text.data)
      (pyStripL_head text.data) (pyStripL_last text.data) ld hld
    rw [hclean]
  · intro s hs
    rw [split_sentences, ← List.map_dropLast] at hs
    obtain ⟨ld, hld, rfl⟩ := List.mem_map.mp hs
    obtain ⟨cc, h1, h2⟩ := splitGo_dropLast_punct (pyStripL text.data) ld hld
    exact ⟨cc, h1, h2⟩
  · intro s hs
    rw [split_sentences] at hs
    obtain ⟨ld, hld, rfl⟩ := List.mem_map.mp hs
    exact splitGo_noInternalBreak (pyStripL text.data) ld hld
  · rw [split_sentences]
    intro h
    exact splitGo_ne_nil _ (List.map_eq_nil_iff.mp h)

/-- Witness for C4 at the empty input and a break-free input. -/
theorem split_sentences_spec_witness :
    split_sentences "" = [""] ∧ split_sentences "Hello world" = ["Hello world"] := by
  refine ⟨(split_sentences_spec "").1 rfl, ?_⟩
  have h := (split_sentences_spec "Hello world").2.1 (by decide)
  rw [h]
  rfl

/-- Interleave segments with separator runs: the first segment, then
alternately one separator run and one segment. -/
def interleave : List (List Char) → List (List Char) → List Char
  | [], _ => []
  | [s], _ => s
  | s :: ss, [] => s ++ interleave ss []
  | s :: ss, w :: ws => s ++ w ++ interleave ss ws

/-- The split is lossless: the input is recovered by re-inserting, at
each boundary, the (nonempty, all-whitespace) run the split consumed. -/
theorem splitGo_reconstruct : ∀ (l : List Char),
    ∃ ws, (∀ w ∈ ws, w ≠ [] ∧ w.all isSpace = true) ∧
      ws.length + 1 = (splitGo l).length ∧
      interleave (splitGo l) ws = l := by
  intro l
  induction l using splitGo.induct with
  | case1 =>
    refine ⟨[], by simp, ?_, ?_⟩
    · rw [splitGo]
      rfl
    · rw [splitGo]
      rfl
  | case2 c =>
    refine ⟨[], by simp, ?_, ?_⟩
    · rw [splitGo]
      rfl
    · rw [splitGo]
      rfl
  | case3 c d rest hcond ih =>
    obtain ⟨ws', hws', hlen', hi'⟩ := ih
    refine ⟨List.takeWhile isSpace (d :: rest) :: ws', ?_, ?_, ?_⟩
    · intro w hw
      rcases List.mem_cons.mp hw with rfl | hw'
      · constructor
        · have hc2 := hcond
          simp only [Bool.and_eq_true] at hc2
          rw [List.takeWhile_cons_of_pos hc2.2]
          exact List.cons_ne_nil _ _
        · rw [List.all_eq_true]
          intro x hx
          exact List.mem_takeWhile_imp hx
      · exact hws' w hw'
    · rw [splitGo, if_pos hcond]
      simp only [List.length_cons]
      omega
    · rw [splitGo, if_pos hcond]
      rcases hX : splitGo (List.dropWhile isSpace (d :: rest)) with _ | ⟨x, xs⟩
      · exact absurd hX (splitGo_ne_nil _)
      · rw [hX] at hi'
        show [c] ++ List.takeWhile isSpace (d :: rest) ++
          interleave (x :: xs) ws' = c :: d :: rest
        rw [hi']
        rw [List.append_assoc]
        rw [List.takeWhile_append_dropWhile]
        rfl
  | case4 c d rest hcond hnil ih =>
    exact absurd hnil (splitGo_ne_nil _)
  | case5 c d rest hcond s0 ss hsome ih =>
    obtain ⟨s', ss', hshape⟩ := splitGo_head d rest
    rw [hshape] at hsome
    obtain ⟨h1, h2⟩ := (List.cons.injEq _ _ _ _).mp hsome
    subst h1
    subst h2
    have heq : splitGo (c :: d :: rest) = (c :: d :: s') :: ss' := by
      rw [splitGo, if_neg hcond, hshape]
    obtain ⟨ws, hw, hlen, hi⟩ := ih
    rw [hshape] at hlen hi
    refine ⟨ws, hw, ?_, ?_⟩
    · rw [heq]
      simp only [List.length_cons] at hlen ⊢
      omega
    · rw [heq]
      cases ss' with
      | nil =>
        cases ws with
        | nil =>
          show c :: d :: s' = c :: d :: rest
          have : (d :: s' : List Char) = d :: rest := hi
          rw [(List.cons.injEq _ _ _ _).mp this |>.2]
        | cons w ws₂ =>
          simp at hlen
      | cons x xs =>
        cases ws with
        | nil => simp at hlen
        | cons w ws₂ =>
          show (c :: d :: s') ++ w ++ interleave (x :: xs) ws₂ = c :: d :: rest
          have : (d :: s') ++ w ++ interleave (x :: xs) ws₂ = d :: rest := hi
          rw [← this]
          rfl

/-- String-level interleaving of segments and separator runs. -/
def interleaveS (segs ws : List String) : String :=
  ⟨interleave (segs.map String.data) (ws.map String.data)⟩

theorem map_data_map_mk (X : List (List Char)) :
    (X.map (fun l => (⟨l⟩ : String))).map String.data = X := by
  rw [List.map_map]
  exact List.map_id' X

theorem spaceJoin_data : ∀ segs : List String,
    (spaceJoin segs).data =
      interleave (segs.map String.data) (List.replicate (segs.length - 1) [' ']) := by
  intro segs
  induction segs with
  | nil => rfl
  | cons s rest ih =>
    cases rest with
    | nil => rfl
    | cons t r =>
      show (s ++ " " ++ spaceJoin (t :: r)).data = _
      rw [String.data_append, String.data_append]
      simp only [List.length_cons, Nat.add_sub_cancel]
      rw [List.replicate_succ]
      show s.data ++ [' '] ++ (spaceJoin (t :: r)).data =
        s.data ++ [' '] ++ interleave ((t :: r).map String.data)
          (List.replicate ((t :: r).length - 1) [' '])
      rw [ih]

/-- Claim C5: the splitter's output is never empty, and the stripped
input is recovered from the segments by re-inserting the consumed
(nonempty, all-whitespace) boundary runs; joining the segments with
single spaces is exactly the same interleaving with each boundary run
normalized to one space. -/
theorem split_join_spec (text : String) :
    split_sentences text ≠ [] ∧
    ∃ ws : List String,
      (∀ w ∈ ws, w ≠ "" ∧ w.data.all isSpace = true) ∧
      ws.length + 1 = (split_sentences text).length ∧
      interleaveS (split_sentences text) ws = pyStrip text ∧
      spaceJoin (split_sentences text) =
        interleaveS (split_sentences text) (List.replicate ws.length " ") := by
  obtain ⟨ws0, hws0, hlen0, hi0⟩ := splitGo_reconstruct (pyStripL text.data)
  have hsplitdata : (split_sentences text).map String.data = splitGo (pyStripL text.data) := by
    rw [split_sentences]
    exact map_data_map_mk _
  have hlen1 : (split_sentences text).length = (splitGo (pyStripL text.data)).length := by
    rw [← hsplitdata, List.length_map]
  refine ⟨(split_sentences_spec text).2.2.2.2.2, ws0.map (fun l => ⟨l⟩), ?_, ?_, ?_, ?_⟩
  · intro w hw
    obtain ⟨l, hl, rfl⟩ := List.mem_map.mp hw
    obtain ⟨h1, h2⟩ := hws0 l hl
    refine ⟨?_, h2⟩
    intro he
    apply h1
    show (⟨l⟩ : String).data = ([] : List Char)
    rw [he]
  · rw [List.length_map, hlen1]
    exact hlen0
  · rw [interleaveS, hsplitdata, map_data_map_mk, hi0]
    rfl
  · rw [interleaveS, hsplitdata]
    rw [List.map_replicate, List.length_map]
    show spaceJoin (split_sentences text) =
      ⟨interleave (splitGo (pyStripL text.data)) (List.replicate ws0.length (" " : String).data)⟩
    have hsep : (" " : String).data = [' '] := rfl
    rw [hsep]
    have hlen2 : ws0.length = (split_sentences text).length - 1 := by omega
    rw [hlen2, ← hsplitdata, ← spaceJoin_data]

theorem dictGet_insert_self (d : List (String × String)) (k v : String) :
    dictGet (dictInsert d k v) k = some v := by
  induction d with
  | nil => simp [dictInsert, dictGet]
  | cons p rest ih =>
    obtain ⟨k', v'⟩ := p
    rw [dictInsert]
    split
    · next he =>
      rw [dictGet, if_pos he]
    · next he =>
      rw [dictGet, if_neg he]
      exact ih

theorem dictGet_insert_other (d : List (String × String)) (k k' v : String)
    (h : k ≠ k') : dictGet (dictInsert d k v) k' = dictGet d k' := by
  induction d with
  | nil => simp [dictInsert, dictGet, h]
  | cons p rest ih =>
    obtain ⟨k0, v0⟩ := p
    rw [dictInsert]
    split
    · next he =>
      subst he
      rw [dictGet, dictGet]
      split
      · next h2 => exact absurd h2 h
      · rfl
    · rw [dictGet, dictGet]
      split
      · rfl
      · exact ih

/-- The classification loop issues exactly one LLM call per element of
the changed-sentences list. -/
theorem classifyLoop_calls (llm : Nat → String) :
    ∀ (cs : List String) (n : Nat) (d : List (String × String)),
    (classifyLoop llm cs n d).1 = n + cs.length := by
  intro cs
  induction cs with
  | nil => intro n d; simp [classifyLoop]
  | cons s rest ih =>
    intro n d
    rw [classifyLoop, ih]
    simp only [List.length_cons]
    omega

/-- Amended claim C6: for every action on a non-empty draft, the total
number of LLM calls is 1 (polish) plus the number of changed-sentence
occurrences — one classification call per occurrence, not per distinct
trimmed text. -/
theorem llm_call_count (llm : Nat → String) (input : String)
    (h : pyStrip input ≠ "") :
    (runPolishAction llm input).calls =
      1 + (changed_sentences (split_sentences input)
            (split_sentences (pyStrip (llm 0)))).length := by
  rw [runPolishAction, if_neg h]
  show (classifyLoop llm (changed_sentences (split_sentences input)
    (split_sentences (pyStrip (llm 0)))) 1 []).1 = _
  rw [classifyLoop_calls]

/-- Witness for the amended C6 at a concrete draft. -/
theorem llm_call_count_witness :
    (runPolishAction (fun _ => "tone") "Hi.").calls =
      1 + (changed_sentences (split_sentences "Hi.")
            (split_sentences (pyStrip "tone"))).length :=
  llm_call_count (fun _ => "tone") "Hi." (by decide)

/-- A deterministic oracle for the C6 counterexample: the polish call
(call 0) returns two identical sentences; classification calls return
`tone`. -/
def oracleDup : Nat → String := fun n => if n = 0 then "Yo. Yo." else "tone"

/-- Counterexample to claim C6 as stated: with draft `"Hi."` and a
polish response consisting of the same changed sentence twice, the
action issues 3 LLM calls (one polish plus one classification per
occurrence), while the number N of distinct (by trimmed text) changed
sentences is 1 — the claimed total N + 1 = 2 is wrong. -/
theorem llm_call_count_counterexample :
    (runPolishAction oracleDup "Hi.").calls = 3 ∧
    ((changed_sentences (split_sentences "Hi.")
        (split_sentences (pyStrip (oracleDup 0)))).map pyStrip).dedup = ["Yo."] ∧
    (3 : Nat) ≠ 1 + 1 := by
  have hchanged : changed_sentences (split_sentences "Hi.")
      (split_sentences (pyStrip (oracleDup 0))) = ["Yo.", "Yo."] := by
    have h1 : split_sentences "Hi." = ["Hi."] := by
      simp [split_sentences, pyStripL, splitGo, isPunct, isSpace]
    have h2 : split_sentences (pyStrip (oracleDup 0)) = ["Yo.", "Yo."] := by
      simp [oracleDup, split_sentences, pyStrip, pyStripL, splitGo, isPunct, isSpace]
    rw [h1, h2]
    simp [changed_sentences, get_opcodes, get_matching_blocks, matchingRec, findLongestMatch,
      coreLoop, innerJs, windowJs, b2j, extendBack, extendFwd, mergeLoop, opcodeLoop, rowUpdate]
  refine ⟨?_, ?_, by decide⟩
  · rw [runPolishAction, if_neg (by decide)]
    show (classifyLoop oracleDup (changed_sentences (split_sentences "Hi.")
      (split_sentences (pyStrip (oracleDup 0)))) 1 []).1 = 3
    rw [hchanged, classifyLoop_calls]
    rfl
  · rw [hchanged]
    decide

/-- Index of the last occurrence (by trimmed text) of `t` in a list of
sentences: `lastOcc cs t = some i` means position `i` holds the last
occurrence. -/
def lastOcc : List String → String → Option Nat
  | [], _ => none
  | s :: rest, t =>
    match lastOcc rest t with
    | some i => some (i + 1)
    | none => if pyStrip s = t then some 0 else none

theorem classifyLoop_no_occ (llm : Nat → String) :
    ∀ (cs : List String) (t : String) (n : Nat) (d : List (String × String)),
    lastOcc cs t = none →
    dictGet (classifyLoop llm cs n d).2 t = dictGet d t := by
  intro cs
  induction cs with
  | nil => intro t n d _; rfl
  | cons s rest ih =>
    intro t n d h
    rw [lastOcc] at h
    rcases hr : lastOcc rest t with _ | i
    · rw [hr] at h
      have hne : pyStrip s ≠ t := by
        intro he
        rw [if_pos he] at h
        cases h
      rw [classifyLoop, ih t (n + 1) _ hr]
      exact dictGet_insert_other d (pyStrip s) t (respCategory (llm n)) hne
    · rw [hr] at h
      cases h

theorem highlightList_getD (ps : List String) (cats : List (String × String))
    {p : Nat} (hp : p < ps.length) :
    (highlightList ps cats).getD p "" = highlightOne cats (ps.getD p "") := by
  rw [highlightList]
  rw [List.getD_eq_getElem?_getD, List.getD_eq_getElem?_getD, List.getElem?_map]
  rw [List.getElem?_eq_getElem hp]
  rfl

/-- Claim C10 (implicit): when several changed sentences share the same
trimmed text, each occurrence triggers its own classification call and
each result overwrites the previous entry under that key, so the stored
category is the one returned by the classification call for the LAST
occurrence — and every rendered sentence with that trimmed text carries
that category's color. -/
theorem classify_overwrite (llm : Nat → String) :
    ∀ (cs : List String) (t : String) (i n : Nat) (d : List (String × String)),
    lastOcc cs t = some i →
    dictGet (classifyLoop llm cs n d).2 t = some (respCategory (llm (n + i))) ∧
    (classifyLoop llm cs n d).1 = n + cs.length ∧
    (∀ ps : List String, ∀ p, p < ps.length → pyStrip (ps.getD p "") = t →
      (highlightList ps (classifyLoop llm cs n d).2).getD p "" =
        wrapSpan ((dictGet highlights (respCategory (llm (n + i)))).getD "")
          (ps.getD p "")) := by
  have hmain : ∀ (cs : List String) (t : String) (i n : Nat) (d : List (String × String)),
      lastOcc cs t = some i →
      dictGet (classifyLoop llm cs n d).2 t = some (respCategory (llm (n + i))) := by
    intro cs
    induction cs with
    | nil => intro t i n d h; cases h
    | cons s rest ih =>
      intro t i n d h
      rw [lastOcc] at h
      rcases hr : lastOcc rest t with _ | i'
      · rw [hr] at h
        have h2 : (if pyStrip s = t then some 0 else none) = some i := h
        split at h2
        · next he =>
          obtain rfl : (0 : Nat) = i := Option.some.injEq _ _ ▸ h2
          rw [classifyLoop]
          rw [classifyLoop_no_occ llm rest t (n + 1) _ hr]
          rw [← he, dictGet_insert_self]
          rw [Nat.add_zero]
        · cases h2
      · rw [hr] at h
        have h2 : some (i' + 1) = some i := h
        obtain rfl : i' + 1 = i := Option.some.injEq _ _ ▸ h2
        rw [classifyLoop]
        rw [ih t i' (n + 1) _ hr]
        have harith : n + 1 + i' = n + (i' + 1) := by omega
        rw [harith]
  intro cs t i n d h
  refine ⟨hmain cs t i n d h, classifyLoop_calls llm cs n d, ?_⟩
  intro ps p hp ht
  rw [highlightList_getD ps _ hp, highlightOne, ht, hmain cs t i n d h]
  have hne : respCategory (llm (n + i)) ≠ "" := allowed_ne_empty (respCategory_mem _)
  show (if respCategory (llm (n + i)) = "" then ps.getD p ""
    else wrapSpan ((dictGet highlights (respCategory (llm (n + i)))).getD "") (ps.getD p "")) = _
  rw [if_neg hne]

/-- A two-call oracle whose two classification answers differ. -/
def oracleTwo : Nat → String := fun k => if k = 0 then "tone" else "grammar"

/-- Witness for C10: two occurrences of the same trimmed sentence; the
stored category is the second call's answer (`grammar`), which also
drives the rendering. -/
theorem classify_overwrite_witness :
    dictGet (classifyLoop oracleTwo ["Hi there.", "Hi there."] 0 []).2 "Hi there." =
      some (respCategory (oracleTwo (0 + 1))) ∧
    (classifyLoop oracleTwo ["Hi there.", "Hi there."] 0 []).1 = 0 + 2 ∧
    (highlightList ["Hi there."]
        (classifyLoop oracleTwo ["Hi there.", "Hi there."] 0 []).2).getD 0 "" =
      wrapSpan ((dictGet highlights (respCategory (oracleTwo (0 + 1)))).getD "")
        ("Hi there.") := by
  have h := classify_overwrite oracleTwo ["Hi there.", "Hi there."] "Hi there." 1 0 []
    (by decide)
  refine ⟨h.1, h.2.1, ?_⟩
  have := h.2.2 ["Hi there."] 0 (by decide) (by decide)
  rw [this]
  rfl
